import Mathlib

/-!
Verification development for the A* escape-route planner
(`backend/ai/a_star.py` of the IISWPS repository).

The Python module is shallowly embedded here:

* Python floats are idealized as exact rationals (`ℚ`); the values produced
  by `math.sqrt` in the heuristics never flow into a returned result (only
  `g`-costs are returned), they are only *compared* inside the priority
  queue, so heuristic-carrying quantities are represented exactly by the
  type `RootQ` below, a pair `(q, s)` denoting the real number
  `q + sign s * sqrt |s|`, with a decidable order.
* `float('inf')` sentinels are modelled by `⊤ : WithTop ℚ`.
* Positions are integer pairs, grids are lists of rows of integer cells
  (`0` = free, `1` = obstacle, as in the source), indexing is total with an
  out-of-range default (the source only indexes in bounds on rectangular
  grids).
* The mutable `Node` objects shared between `heapq`, `all_nodes` and the
  parent links are modelled by a position-keyed association list
  (`NTab`); the heap stores positions and compares the *current* `f`
  value from the table, exactly like Python compares the live objects.
* `heapq.heappush` / `heapq.heappop` are transcribed from CPython's
  `heapq._siftdown` / `heapq._siftup` (hole-based sifts); the natural-number
  fuel of each sift equals an upper bound on its iteration count, so the
  fuel branch is never reached.
* The unbounded `while open_set:` loop is modelled with a generous fuel;
  fuel exhaustion returns the no-path sentinel and is unreachable for the
  runs evaluated in this file.
-/

/- The rational arithmetic of the embedding is evaluated by kernel
reduction in the concrete-run theorems below; core marks these operations
irreducible for the elaborator, which `decide` needs undone. -/
set_option allowUnsafeReducibility true
attribute [semireducible] Rat.mul Rat.add Rat.sub Rat.inv

namespace IISWPS

/-! ## Exact representation of `q + sign s * sqrt |s|` -/

/-- A value of the form `q + sign s * sqrt |s|` with `q s : ℚ`.
`heapq` only ever *compares* such values (Python compares the float
`f = g + h`), and the comparison is decidable by repeated squaring. -/
structure RootQ where
  q : ℚ
  s : ℚ
deriving DecidableEq, Repr

/-- Real value of the signed square-root component. -/
noncomputable def sgnSqrtQ (t : ℚ) : ℝ :=
  if 0 ≤ t then Real.sqrt (t : ℝ) else -Real.sqrt ((-t : ℚ) : ℝ)

/-- Real value denoted by a `RootQ`. -/
noncomputable def RootQ.val (x : RootQ) : ℝ := (x.q : ℝ) + sgnSqrtQ x.s

/-- Decides `Real.sqrt x - Real.sqrt y < d` for nonnegative rationals `x, y`. -/
def sqrtSubLt (x y d : ℚ) : Bool :=
  if 0 ≤ d then
    if x - y - d ^ 2 < 0 then true
    else if d = 0 then false
    else (x - y - d ^ 2) ^ 2 < 4 * d ^ 2 * y
  else
    if y - x - d ^ 2 ≤ 0 then false
    else 4 * d ^ 2 * x < (y - x - d ^ 2) ^ 2

/-- Decides `Real.sqrt x + Real.sqrt y < d` for nonnegative rationals `x, y`. -/
def sqrtAddLt (x y d : ℚ) : Bool :=
  if d ≤ 0 then false
  else if d ^ 2 - x - y ≤ 0 then false
  else 4 * x * y < (d ^ 2 - x - y) ^ 2

/-- Decides `d < Real.sqrt x + Real.sqrt y` for nonnegative rationals `x, y`. -/
def sqrtAddGt (x y d : ℚ) : Bool :=
  if d < 0 then true
  else if 0 < x + y - d ^ 2 then true
  else 4 * x * y > (d ^ 2 - x - y) ^ 2

/-- Decides `sgnSqrtQ x < d + sgnSqrtQ y`. -/
def sltB (x d y : ℚ) : Bool :=
  if 0 ≤ x then
    if 0 ≤ y then sqrtSubLt x y d
    else sqrtAddLt x (-y) d
  else
    if 0 ≤ y then sqrtAddGt (-x) y (-d)
    else sqrtSubLt (-y) (-x) d

/-- Decidable strict order on `RootQ`, the embedding of Python's `<` on
`Node.f` values (`Node.__lt__`). -/
def RootQ.ltB (a b : RootQ) : Bool := sltB a.s (b.q - a.q) b.s

/-- Add a rational to a `RootQ` (used for `f = g + h`). -/
def RootQ.addQ (r : ℚ) (x : RootQ) : RootQ := ⟨r + x.q, x.s⟩

/-- Multiply a `RootQ` by a rational scalar
(`c * (q + sign s * sqrt |s|) = c*q + sign (c²s·sgn c) * sqrt |c²s|`). -/
def RootQ.smul (c : ℚ) (x : RootQ) : RootQ :=
  ⟨c * x.q, if 0 ≤ c then c ^ 2 * x.s else -(c ^ 2 * x.s)⟩

/-! ## Grid model (`a_star.py` lines 55–111) -/

/-- A grid position; the source uses `(x, y)` integer pairs. -/
abbrev Pos := ℤ × ℤ

/-- Cell lookup `grid[x][y]`; out-of-range indices default to an obstacle
(the source only performs in-bounds lookups on rectangular grids). -/
def cellAt (grid : List (List ℤ)) (x y : ℤ) : ℤ :=
  (grid.getD x.toNat []).getD y.toNat 1

/-- The eight movement directions, in source order. -/
def directions : List Pos :=
  [(-1, -1), (-1, 0), (-1, 1), (0, -1), (0, 1), (1, -1), (1, 0), (1, 1)]

/-- `AStarPlanner._get_neighbors`: traversable 8-connected neighbors.
The source sets `cols = len(grid[0]) if rows > 0 else 0`, which equals
`(grid.headD []).length` in both cases. -/
def get_neighbors (grid : List (List ℤ)) (blocked : List Pos) (p : Pos) : List Pos :=
  directions.filterMap (fun d =>
    if 0 ≤ p.1 + d.1 ∧ p.1 + d.1 < (grid.length : ℤ) ∧ 0 ≤ p.2 + d.2 ∧
        p.2 + d.2 < ((grid.headD []).length : ℤ) ∧ (p.1 + d.1, p.2 + d.2) ∉ blocked ∧
        cellAt grid (p.1 + d.1) (p.2 + d.2) = 0 then
      some (p.1 + d.1, p.2 + d.2)
    else none)

/-- `AStarPlanner._calculate_cost`: `1.414` for a diagonal move, `1.0`
otherwise (the source literal is `1.414`, not `√2`). -/
def calculate_cost (x1 y1 x2 y2 : ℤ) : ℚ :=
  if |x2 - x1| = 1 ∧ |y2 - y1| = 1 then 1414 / 1000 else 1

/-- `AStarPlanner._heuristic`: Euclidean distance `sqrt (dx² + dy²)`. -/
def heuristic (x1 y1 x2 y2 : ℤ) : RootQ :=
  ⟨0, (((x2 - x1) ^ 2 + (y2 - y1) ^ 2 : ℤ) : ℚ)⟩

/-! ## Node table: the `all_nodes` dict of shared mutable `Node` objects -/

/-- One search node: `g`, `h` and the parent back-reference.
`f` is always `g + h` in the source (kept in sync at every update),
so it is computed on demand rather than stored. -/
structure SNode where
  g : ℚ
  h : RootQ
  parent : Option Pos
deriving DecidableEq, Repr

/-- The `all_nodes` dict: position-keyed association list. -/
abbrev NTab := List (Pos × SNode)

/-- Dict lookup. -/
def ntGet : NTab → Pos → Option SNode
  | [], _ => none
  | e :: t, p => if e.1 = p then some e.2 else ntGet t p

/-- Dict write (mutating the existing node object in place, or appending a
new one, as Python dict assignment does). -/
def ntSet : NTab → Pos → SNode → NTab
  | [], p, nd => [(p, nd)]
  | e :: t, p, nd => if e.1 = p then (p, nd) :: t else e :: ntSet t p nd

/-- The current `g` of the node object at `p` (`0` if absent; lookups in the
algorithm only ever hit present keys). -/
def gOf (t : NTab) (p : Pos) : ℚ :=
  match ntGet t p with
  | some nd => nd.g
  | none => 0

/-- The current `f = g + h` of the node object at `p`. -/
def fOf (t : NTab) (p : Pos) : RootQ :=
  match ntGet t p with
  | some nd => RootQ.addQ nd.g nd.h
  | none => ⟨0, 0⟩

/-- Python's `Node.__lt__` as seen by `heapq`: compare the live `f` values. -/
def heapLt (t : NTab) (a b : Pos) : Bool := RootQ.ltB (fOf t a) (fOf t b)

/-! ## CPython `heapq` (transcribed from `Lib/heapq.py`) -/

/-- CPython `heapq._siftdown(heap, startpos, pos)` with the hole value
`newitem` held out of the array; the fuel argument bounds the number of
iterations (each step at least halves `pos`, so `pos` itself is enough). -/
def siftdownGo (lt : α → α → Bool) (newitem : α) :
    Nat → List α → Nat → Nat → List α
  | 0, heap, _, pos => heap.set pos newitem
  | fuel + 1, heap, startpos, pos =>
    if startpos < pos then
      if lt newitem (heap.getD ((pos - 1) / 2) newitem) then
        siftdownGo lt newitem fuel
          (heap.set pos (heap.getD ((pos - 1) / 2) newitem)) startpos ((pos - 1) / 2)
      else heap.set pos newitem
    else heap.set pos newitem

/-- CPython `heapq._siftup(heap, pos)` (which ends by calling `_siftdown`);
the child index `childpos` is `2*pos+1`, or `2*pos+2` when the right child
exists and is not greater; the fuel `heap.length` bounds the iterations. -/
def siftupGo (lt : α → α → Bool) (newitem : α) :
    Nat → List α → Nat → Nat → List α
  | 0, heap, startpos, pos => siftdownGo lt newitem pos (heap.set pos newitem) startpos pos
  | fuel + 1, heap, startpos, pos =>
    if 2 * pos + 1 < heap.length then
      if 2 * pos + 2 < heap.length ∧
          ¬ lt (heap.getD (2 * pos + 1) newitem) (heap.getD (2 * pos + 2) newitem) then
        siftupGo lt newitem fuel
          (heap.set pos (heap.getD (2 * pos + 2) newitem)) startpos (2 * pos + 2)
      else
        siftupGo lt newitem fuel
          (heap.set pos (heap.getD (2 * pos + 1) newitem)) startpos (2 * pos + 1)
    else siftdownGo lt newitem pos (heap.set pos newitem) startpos pos

/-- CPython `heapq.heappush`. -/
def heappush (lt : α → α → Bool) (heap : List α) (item : α) : List α :=
  siftdownGo lt item heap.length (heap ++ [item]) 0 heap.length

/-- CPython `heapq.heappop`; `none` when the heap is empty (the source pops
only under `while open_set:`). -/
def heappop (lt : α → α → Bool) (heap : List α) : Option (α × List α) :=
  match heap.getLast? with
  | none => none
  | some lastelt =>
    if heap.dropLast.isEmpty then some (lastelt, [])
    else
      some (heap.dropLast.headD lastelt,
        siftupGo lt lastelt heap.dropLast.length (heap.dropLast.set 0 lastelt) 0 0)

/-! ## The shared search loop (`find_path` lines 165–214 and
`find_path_with_risk` lines 274–319 differ only in the per-edge cost and
the heuristic; both are instances of `gloop` below). -/

/-- One pass over the neighbor list of the popped node (`for nx, ny in
neighbors:` including the `continue` branches).  `cost cur nb` is the
tentative edge cost and `hfun nb` the heuristic of the neighbor. -/
def gexpand (cost : Pos → Pos → ℚ) (hfun : Pos → RootQ) (closed : List Pos)
    (cur : Pos) (curG : ℚ) : List Pos → List Pos × NTab → List Pos × NTab
  | [], s => s
  | nb :: rest, (heap, nodes) =>
    if nb ∈ closed then gexpand cost hfun closed cur curG rest (heap, nodes)
    else
      match ntGet nodes nb with
      | some nd =>
        if curG + cost cur nb < nd.g then
          gexpand cost hfun closed cur curG rest
            (heappush (heapLt (ntSet nodes nb ⟨curG + cost cur nb, hfun nb, some cur⟩)) heap nb,
             ntSet nodes nb ⟨curG + cost cur nb, hfun nb, some cur⟩)
        else gexpand cost hfun closed cur curG rest (heap, nodes)
      | none =>
        gexpand cost hfun closed cur curG rest
          (heappush (heapLt (ntSet nodes nb ⟨curG + cost cur nb, hfun nb, some cur⟩)) heap nb,
           ntSet nodes nb ⟨curG + cost cur nb, hfun nb, some cur⟩)

/-- The `while open_set:` loop.  Returns the goal position and the final
node table when the goal is popped, `none` when the open set empties.
Fuel exhaustion also yields `none`; the callers pass a fuel that the
evaluated runs never exhaust. -/
def gloop (grid : List (List ℤ)) (blocked : List Pos) (goalx goaly : ℤ)
    (cost : Pos → Pos → ℚ) (hfun : Pos → RootQ) :
    Nat → List Pos × List Pos × NTab → Option (Pos × NTab)
  | 0, _ => none
  | fuel + 1, (heap, closed, nodes) =>
    match heappop (heapLt nodes) heap with
    | none => none
    | some (cur, heap1) =>
      if cur.1 = goalx ∧ cur.2 = goaly then some (cur, nodes)
      else
        gloop grid blocked goalx goaly cost hfun fuel
          ((gexpand cost hfun (cur :: closed) cur (gOf nodes cur)
              (get_neighbors grid blocked cur) (heap1, nodes)).1,
           cur :: closed,
           (gexpand cost hfun (cur :: closed) cur (gOf nodes cur)
              (get_neighbors grid blocked cur) (heap1, nodes)).2)

/-- The parent pointer of the node object at `p` (`node.parent`). -/
def parentOf (nodes : NTab) (p : Pos) : Option Pos :=
  match ntGet nodes p with
  | some nd => nd.parent
  | none => none

/-- Path reconstruction (`while node is not None:` followed by
`path.reverse()`; accumulating with cons produces the reversed list
directly).  The callers pass fuel `nodes.length + 1`, which the parent
chains never exhaust. -/
def reconstruct (nodes : NTab) : Nat → Option Pos → List Pos → List Pos
  | 0, _, acc => acc
  | _ + 1, none, acc => acc
  | fuel + 1, some p, acc =>
    reconstruct nodes fuel (parentOf nodes p) (p :: acc)

/-- Risk lookup `risk_map[x][y]` (out-of-range defaults to `0`; the claims
about risk sums assume a risk matrix matching the grid, as in §3 of the
spec). -/
def riskAt (rm : List (List ℚ)) (x y : ℤ) : ℚ :=
  (rm.getD x.toNat []).getD y.toNat 0

/-- Path reconstruction of `find_path_with_risk`, which additionally
accumulates `total_risk += risk_map[x][y]` for every in-bounds cell. -/
def reconstructRisk (nodes : NTab) (rm : List (List ℚ)) (rows cols : ℤ) :
    Nat → Option Pos → List Pos → ℚ → List Pos × ℚ
  | 0, _, acc, tr => (acc, tr)
  | _ + 1, none, acc, tr => (acc, tr)
  | fuel + 1, some p, acc, tr =>
    reconstructRisk nodes rm rows cols fuel (parentOf nodes p) (p :: acc)
      (if 0 ≤ p.1 ∧ p.1 < rows ∧ 0 ≤ p.2 ∧ p.2 < cols
       then tr + riskAt rm p.1 p.2 else tr)

/-- Search fuel: far larger than any possible number of loop iterations of
the evaluated runs. -/
def fuelFor (grid : List (List ℤ)) : Nat :=
  2 ^ (grid.length * (grid.headD []).length + 16)

/-! ## `find_path` (lines 113–214) -/

/-- Packaging of the goal-branch return of `find_path`:
`(path, current.g, len(path) - 1)`. -/
def packResult (nodes : NTab) (cur : Pos) : List Pos × WithTop ℚ × ℤ :=
  (reconstruct nodes (nodes.length + 1) (some cur) [],
   ((gOf nodes cur : ℚ) : WithTop ℚ),
   ((reconstruct nodes (nodes.length + 1) (some cur) []).length : ℤ) - 1)

/-- `AStarPlanner.find_path`.  Returns `(path, total_cost, path_length)`
with `total_cost = ⊤` encoding `float('inf')`. -/
def find_path (grid : List (List ℤ)) (start goal : Pos)
    (blocked : Option (List Pos)) : List Pos × WithTop ℚ × ℤ :=
  if grid.length = 0 then ([], ⊤, 0)
  else if ¬ (0 ≤ start.1 ∧ start.1 < (grid.length : ℤ) ∧ 0 ≤ start.2 ∧
      start.2 < ((grid.headD []).length : ℤ)) then
    ([], ⊤, 0)
  else if ¬ (0 ≤ goal.1 ∧ goal.1 < (grid.length : ℤ) ∧ 0 ≤ goal.2 ∧
      goal.2 < ((grid.headD []).length : ℤ)) then
    ([], ⊤, 0)
  else if start ∈ blocked.getD [] ∨ cellAt grid start.1 start.2 = 1 then ([], ⊤, 0)
  else if goal ∈ blocked.getD [] ∨ cellAt grid goal.1 goal.2 = 1 then ([], ⊤, 0)
  else
    match gloop grid (blocked.getD []) goal.1 goal.2
        (fun a b => calculate_cost a.1 a.2 b.1 b.2)
        (fun p => heuristic p.1 p.2 goal.1 goal.2)
        (fuelFor grid)
        ([start], [], [(start, ⟨0, heuristic start.1 start.2 goal.1 goal.2, none⟩)]) with
    | none => ([], ⊤, 0)
    | some (cur, nodes) => packResult nodes cur

/-! ## `find_path_with_risk` (lines 216–319) -/

/-- The closure `risk_heuristic` of `find_path_with_risk`:
`base_dist * (1 - w) + avg_risk * 10 * w` with the in-bounds guard of the
source. -/
def riskHeuristic (rm : List (List ℚ)) (rows cols : ℤ) (w : ℚ)
    (x1 y1 x2 y2 : ℤ) : RootQ :=
  let base : RootQ := ⟨0, (((x2 - x1) ^ 2 + (y2 - y1) ^ 2 : ℤ) : ℚ)⟩
  let avg : ℚ :=
    if 0 ≤ x1 ∧ x1 < rows ∧ 0 ≤ y1 ∧ y1 < cols ∧
        0 ≤ x2 ∧ x2 < rows ∧ 0 ≤ y2 ∧ y2 < cols then
      (riskAt rm x1 y1 + riskAt rm x2 y2) / 2
    else 0
  RootQ.addQ (avg * 10 * w) (RootQ.smul (1 - w) base)

/-- The per-edge combined cost of `find_path_with_risk`:
`move_cost * (1 - w) + risk_cost * w` with `risk_cost = risk_map[nb] * 10`
under the source's in-bounds guard. -/
def riskCost (rm : List (List ℚ)) (rows cols : ℤ) (w : ℚ) (a b : Pos) : ℚ :=
  let move := calculate_cost a.1 a.2 b.1 b.2
  let rc := if 0 ≤ b.1 ∧ b.1 < rows ∧ 0 ≤ b.2 ∧ b.2 < cols
    then riskAt rm b.1 b.2 * 10 else 0
  move * (1 - w) + rc * w

/-- The effective risk map: `risk_map` or, when `None` is supplied, a
zero matrix of the grid's shape (the inner comprehension of the source
reads `len(grid[0])` only when the grid has a row). -/
def defaultRM (grid : List (List ℤ)) : Option (List (List ℚ)) → List (List ℚ)
  | none => grid.map (fun _ => List.replicate (grid.headD []).length (0 : ℚ))
  | some m => m

/-- Packaging of the goal-branch return of `find_path_with_risk`:
`(path, current.g, total_risk, len(path) - 1)`. -/
def packResultRisk (nodes : NTab) (rm : List (List ℚ)) (rows cols : ℤ)
    (cur : Pos) : List Pos × WithTop ℚ × WithTop ℚ × ℤ :=
  ((reconstructRisk nodes rm rows cols (nodes.length + 1) (some cur) [] 0).1,
   ((gOf nodes cur : ℚ) : WithTop ℚ),
   (((reconstructRisk nodes rm rows cols (nodes.length + 1) (some cur) [] 0).2 : ℚ) : WithTop ℚ),
   (((reconstructRisk nodes rm rows cols (nodes.length + 1) (some cur) [] 0).1.length : ℤ) - 1))

/-- `AStarPlanner.find_path_with_risk`.  Returns
`(path, distance_cost, risk_cost, path_length)`.  Note that, unlike
`find_path`, the source validates only grid bounds for `start` and `goal`
(no obstacle or blocked check). -/
def find_path_with_risk (grid : List (List ℤ)) (start goal : Pos)
    (risk_map : Option (List (List ℚ))) (blocked : Option (List Pos))
    (safety_weight : ℚ) : List Pos × WithTop ℚ × WithTop ℚ × ℤ :=
  if grid.length = 0 then ([], ⊤, ⊤, 0)
  else if ¬ (0 ≤ start.1 ∧ start.1 < (grid.length : ℤ) ∧ 0 ≤ start.2 ∧
      start.2 < ((grid.headD []).length : ℤ)) then
    ([], ⊤, ⊤, 0)
  else if ¬ (0 ≤ goal.1 ∧ goal.1 < (grid.length : ℤ) ∧ 0 ≤ goal.2 ∧
      goal.2 < ((grid.headD []).length : ℤ)) then
    ([], ⊤, ⊤, 0)
  else
    match gloop grid (blocked.getD []) goal.1 goal.2
        (riskCost (defaultRM grid risk_map) grid.length (grid.headD []).length safety_weight)
        (fun p => riskHeuristic (defaultRM grid risk_map) grid.length (grid.headD []).length
          safety_weight p.1 p.2 goal.1 goal.2)
        (fuelFor grid)
        ([start], [],
         [(start, ⟨0, riskHeuristic (defaultRM grid risk_map) grid.length
            (grid.headD []).length safety_weight start.1 start.2 goal.1 goal.2, none⟩)]) with
    | none => ([], ⊤, ⊤, 0)
    | some (cur, nodes) =>
      packResultRisk nodes (defaultRM grid risk_map) grid.length (grid.headD []).length cur

/-! ## `compare_routes` (lines 321–378) -/

/-- Python `round(x, 2)` (round half to even), on exact rationals. -/
def round2 (x : ℚ) : ℚ :=
  let y := x * 100
  let fl := ⌊y⌋
  let r : ℤ :=
    if y - fl < 1 / 2 then fl
    else if 1 / 2 < y - fl then fl + 1
    else if fl % 2 = 0 then fl else fl + 1
  (r : ℚ) / 100

/-- `round(x, 2)` lifted to the `float('inf')` sentinel. -/
def round2W : WithTop ℚ → WithTop ℚ
  | ⊤ => ⊤
  | (x : ℚ) => (round2 x : ℚ)

/-- One labeled entry of the `compare_routes` result. -/
structure RouteInfo where
  path : List Pos
  distance : WithTop ℚ
  risk : WithTop ℚ
  length : ℤ
deriving DecidableEq

/-- The `compare_routes` result dictionary. -/
structure RouteComparison where
  shortest : RouteInfo
  safest : RouteInfo
  balanced : RouteInfo
deriving DecidableEq

/-- Python truthiness of the optional `risk_map` argument (`if risk_map:`):
`None` and the empty list are falsy. -/
def riskTruthy : Option (List (List ℚ)) → Bool
  | none => false
  | some m => ¬ m.isEmpty

/-- `len(path) - 1 if path else 0`. -/
def lenField (p : List Pos) : ℤ := if p.isEmpty then 0 else (p.length : ℤ) - 1

/-- `AStarPlanner.compare_routes`. -/
def compare_routes (grid : List (List ℤ)) (start goal : Pos)
    (risk_map : Option (List (List ℚ))) (blocked : Option (List Pos)) :
    RouteComparison :=
  let s := find_path grid start goal blocked
  let safe : List Pos × WithTop ℚ × WithTop ℚ :=
    if riskTruthy risk_map then
      let r := find_path_with_risk grid start goal risk_map blocked (8 / 10)
      (r.1, r.2.1, r.2.2.1)
    else (s.1, s.2.1, (0 : ℚ))
  let bal : List Pos × WithTop ℚ × WithTop ℚ :=
    if riskTruthy risk_map then
      let r := find_path_with_risk grid start goal risk_map blocked (5 / 10)
      (r.1, r.2.1, r.2.2.1)
    else (s.1, s.2.1, (0 : ℚ))
  { shortest := ⟨s.1, round2W s.2.1, (0 : ℚ), lenField s.1⟩
    safest := ⟨safe.1, round2W safe.2.1, round2W safe.2.2, lenField safe.1⟩
    balanced := ⟨bal.1, round2W bal.2.1, round2W bal.2.2, lenField bal.1⟩ }

/-! ## Specification-side predicates -/

/-- One 8-connected step: each coordinate changes by at most one and the
two positions differ. -/
def step8 (a b : Pos) : Prop :=
  |b.1 - a.1| ≤ 1 ∧ |b.2 - a.2| ≤ 1 ∧ ¬(b.1 = a.1 ∧ b.2 = a.2)

/-- Every pair of consecutive path positions is one 8-connected step. -/
def Chain8 (l : List Pos) : Prop := List.Chain' step8 l

/-- Sum of per-edge costs along a path, for a general edge-cost function. -/
def pathCostBy (cost : Pos → Pos → ℚ) : List Pos → ℚ
  | [] => 0
  | [_] => 0
  | a :: b :: t => cost a b + pathCostBy cost (b :: t)

/-- Sum of the per-edge distance costs of `find_path` along a path. -/
def pathCost (l : List Pos) : ℚ :=
  pathCostBy (fun a b => calculate_cost a.1 a.2 b.1 b.2) l

/-- Sum of the (unscaled) risk-map values over the cells of a path. -/
def pathRiskSum (rm : List (List ℚ)) (l : List Pos) : ℚ :=
  (l.map (fun p => riskAt rm p.1 p.2)).sum

/-- Position `p` lies inside the `rows × cols` bounds the source checks. -/
def inBoundsP (rows cols : ℤ) (p : Pos) : Prop :=
  0 ≤ p.1 ∧ p.1 < rows ∧ 0 ≤ p.2 ∧ p.2 < cols

/-! ## Search invariant -/

/-- A well-formed parent chain in the node table:
`ch` lists the positions from the start node to `p`, every non-final
element is closed, consecutive positions are 8-connected steps, and every
node's `g` is its predecessor's `g` plus the edge cost. -/
inductive ChainOK (nodes : NTab) (closed : List Pos) (start : Pos)
    (cost : Pos → Pos → ℚ) : List Pos → Pos → SNode → Prop
  | base (nd : SNode) :
      ntGet nodes start = some nd → nd.parent = none → nd.g = 0 →
      ChainOK nodes closed start cost [start] start nd
  | step (ch : List Pos) (q : Pos) (qnd : SNode) (p : Pos) (nd : SNode) :
      ChainOK nodes closed start cost ch q qnd →
      q ∈ closed →
      ntGet nodes p = some nd →
      nd.parent = some q →
      nd.g = qnd.g + cost q p →
      step8 q p →
      p ∉ ch →
      ChainOK nodes closed start cost (ch ++ [p]) p nd

/-- The loop invariant of `gloop`, for an arbitrary predicate `good`
satisfied by the start node and by every generated neighbor. -/
structure SInv (grid : List (List ℤ)) (blocked : List Pos) (start : Pos)
    (cost : Pos → Pos → ℚ) (good : Pos → Prop)
    (heap closed : List Pos) (nodes : NTab) : Prop where
  good_keys : ∀ p nd, ntGet nodes p = some nd → good p
  chains : ∀ p nd, ntGet nodes p = some nd →
    ∃ ch, ChainOK nodes closed start cost ch p nd
  heap_keys : ∀ p ∈ heap, (ntGet nodes p).isSome
  start_entry : ∃ nd0, ntGet nodes start = some nd0 ∧ nd0.parent = none ∧ nd0.g = 0
  phase : start ∈ closed ∨ (closed = [] ∧ heap = [start])

/-! ## Relation used for the zero-risk equivalence
(`find_path_with_risk` on a uniformly-zero risk map runs in lockstep with
`find_path`, all `g`/`h`/`f` values scaled by `1 - safety_weight`). -/

/-- Node values scaled by `c` (`g` exactly, `h` as a real value), with the
same parent pointer. -/
def NodeRel (c : ℚ) (pn rn : SNode) : Prop :=
  rn.g = c * pn.g ∧ rn.h.val = (c : ℝ) * pn.h.val ∧ rn.parent = pn.parent

/-- Tables related entry-by-entry (same keys in the same order, values
related by `NodeRel`). -/
def TabRel (c : ℚ) (tp tr : NTab) : Prop :=
  List.Forall₂ (fun a b => a.1 = b.1 ∧ NodeRel c a.2 b.2) tp tr

/-! # Theorems

## Correctness of the exact square-root comparison -/

theorem sqrtSubLt_iff (x y d : ℚ) (hx : 0 ≤ x) (hy : 0 ≤ y) :
    sqrtSubLt x y d = true ↔ Real.sqrt x - Real.sqrt y < (d : ℝ) := by
  have hxR : (0 : ℝ) ≤ (x : ℝ) := by exact_mod_cast hx
  have hyR : (0 : ℝ) ≤ (y : ℝ) := by exact_mod_cast hy
  have hsx : Real.sqrt (x : ℝ) ^ 2 = (x : ℝ) := Real.sq_sqrt hxR
  have hsy : Real.sqrt (y : ℝ) ^ 2 = (y : ℝ) := Real.sq_sqrt hyR
  have hsx0 : (0 : ℝ) ≤ Real.sqrt (x : ℝ) := Real.sqrt_nonneg _
  have hsy0 : (0 : ℝ) ≤ Real.sqrt (y : ℝ) := Real.sqrt_nonneg _
  unfold sqrtSubLt
  split_ifs with h1 h2 h3 h4
  · have h2R : (x : ℝ) - y - d ^ 2 < 0 := by exact_mod_cast h2
    have h1R : (0 : ℝ) ≤ (d : ℝ) := by exact_mod_cast h1
    simp only [true_iff]
    by_contra hcon
    push_neg at hcon
    have h5 : Real.sqrt y + d ≤ Real.sqrt x := by linarith
    nlinarith [mul_nonneg h1R hsy0]
  · subst h3
    simp only [false_iff, not_lt]
    push_neg at h2
    have h2R : (0 : ℝ) ≤ (x : ℝ) - y - 0 ^ 2 := by exact_mod_cast h2
    have : Real.sqrt (y : ℝ) ≤ Real.sqrt (x : ℝ) :=
      Real.sqrt_le_sqrt (by linarith)
    push_cast
    linarith
  · have hd : 0 < d := lt_of_le_of_ne h1 (Ne.symm h3)
    have hdR : (0 : ℝ) < (d : ℝ) := by exact_mod_cast hd
    push_neg at h2
    have h2R : (0 : ℝ) ≤ (x : ℝ) - y - d ^ 2 := by exact_mod_cast h2
    simp only [decide_eq_true_eq]
    constructor
    · intro hlt
      have hltR : ((x : ℝ) - y - d ^ 2) ^ 2 < 4 * d ^ 2 * y := by exact_mod_cast hlt
      have hstep : (x : ℝ) - y - d ^ 2 < 2 * d * Real.sqrt y := by
        nlinarith [mul_nonneg (mul_nonneg (by norm_num : (0:ℝ) ≤ 2) hdR.le) hsy0]
      have hpos : (0 : ℝ) < Real.sqrt y + d := by linarith
      have := (Real.sqrt_lt' hpos).2 (by nlinarith : (x : ℝ) < (Real.sqrt (y : ℝ) + d) ^ 2)
      linarith
    · intro hlt
      have hpos : (0 : ℝ) < Real.sqrt y + d := by linarith
      have hx2 : (x : ℝ) < (Real.sqrt (y : ℝ) + d) ^ 2 :=
        (Real.sqrt_lt' hpos).1 (by linarith)
      have hstep : (x : ℝ) - y - d ^ 2 < 2 * d * Real.sqrt y := by nlinarith
      have : ((x : ℝ) - y - d ^ 2) ^ 2 < 4 * d ^ 2 * y := by
        nlinarith [mul_nonneg (mul_nonneg (by norm_num : (0:ℝ) ≤ 2) hdR.le) hsy0]
      exact_mod_cast this
  · push_neg at h1
    have h1R : (d : ℝ) < 0 := by exact_mod_cast h1
    have h4R : (y : ℝ) - x - d ^ 2 ≤ 0 := by exact_mod_cast h4
    simp only [false_iff, not_lt]
    by_contra hcon
    push_neg at hcon
    have hpos : (0 : ℝ) < Real.sqrt y + d := by linarith
    have h6 : (x : ℝ) < (Real.sqrt (y : ℝ) + d) ^ 2 := by
      nlinarith [mul_pos (by linarith : (0:ℝ) < Real.sqrt (y:ℝ) + d - Real.sqrt (x:ℝ))
        (by linarith : (0:ℝ) < Real.sqrt (y:ℝ) + d + Real.sqrt (x:ℝ))]
    nlinarith [mul_neg_of_neg_of_pos h1R hpos]
  · push_neg at h1 h4
    have h1R : (d : ℝ) < 0 := by exact_mod_cast h1
    have h4R : (0 : ℝ) < (y : ℝ) - x - d ^ 2 := by exact_mod_cast h4
    simp only [decide_eq_true_eq]
    have hnn : (0 : ℝ) ≤ Real.sqrt (x : ℝ) - d := by linarith
    constructor
    · intro hlt
      have hltR : 4 * d ^ 2 * (x : ℝ) < ((y : ℝ) - x - d ^ 2) ^ 2 := by exact_mod_cast hlt
      have hstep : 2 * (-(d : ℝ)) * Real.sqrt x < (y : ℝ) - x - d ^ 2 := by
        nlinarith [mul_nonneg (mul_nonneg (by norm_num : (0:ℝ) ≤ 2) (by linarith : (0:ℝ) ≤ -(d:ℝ))) hsx0]
      have := (Real.lt_sqrt hnn).2 (by nlinarith : (Real.sqrt (x : ℝ) - d) ^ 2 < (y : ℝ))
      linarith
    · intro hlt
      have hlt2 : (Real.sqrt (x : ℝ) - d) ^ 2 < (y : ℝ) :=
        (Real.lt_sqrt hnn).1 (by linarith)
      have hstep : 2 * (-(d : ℝ)) * Real.sqrt x < (y : ℝ) - x - d ^ 2 := by nlinarith
      have : 4 * d ^ 2 * (x : ℝ) < ((y : ℝ) - x - d ^ 2) ^ 2 := by
        nlinarith [mul_nonneg (mul_nonneg (by norm_num : (0:ℝ) ≤ 2) (by linarith : (0:ℝ) ≤ -(d:ℝ))) hsx0]
      exact_mod_cast this

theorem sqrtAddLt_iff (x y d : ℚ) (hx : 0 ≤ x) (hy : 0 ≤ y) :
    sqrtAddLt x y d = true ↔ Real.sqrt x + Real.sqrt y < (d : ℝ) := by
  have hxR : (0 : ℝ) ≤ (x : ℝ) := by exact_mod_cast hx
  have hyR : (0 : ℝ) ≤ (y : ℝ) := by exact_mod_cast hy
  have hsx : Real.sqrt (x : ℝ) ^ 2 = (x : ℝ) := Real.sq_sqrt hxR
  have hsy : Real.sqrt (y : ℝ) ^ 2 = (y : ℝ) := Real.sq_sqrt hyR
  have hsx0 : (0 : ℝ) ≤ Real.sqrt (x : ℝ) := Real.sqrt_nonneg _
  have hsy0 : (0 : ℝ) ≤ Real.sqrt (y : ℝ) := Real.sqrt_nonneg _
  unfold sqrtAddLt
  split_ifs with h1 h2
  · have h1R : (d : ℝ) ≤ 0 := by exact_mod_cast h1
    simp only [false_iff, not_lt]
    linarith
  · push_neg at h1
    have h1R : (0 : ℝ) < (d : ℝ) := by exact_mod_cast h1
    have h2R : (d : ℝ) ^ 2 - x - y ≤ 0 := by exact_mod_cast h2
    simp only [false_iff, not_lt]
    by_contra hcon
    push_neg at hcon
    nlinarith [mul_nonneg hsx0 hsy0]
  · push_neg at h1 h2
    have h1R : (0 : ℝ) < (d : ℝ) := by exact_mod_cast h1
    have h2R : (0 : ℝ) < (d : ℝ) ^ 2 - x - y := by exact_mod_cast h2
    simp only [decide_eq_true_eq]
    constructor
    · intro hlt
      have hltR : 4 * (x : ℝ) * y < ((d : ℝ) ^ 2 - x - y) ^ 2 := by exact_mod_cast hlt
      have hstep : 2 * Real.sqrt x * Real.sqrt y < (d : ℝ) ^ 2 - x - y := by
        nlinarith [mul_nonneg (mul_nonneg (by norm_num : (0:ℝ) ≤ 2) hsx0) hsy0]
      nlinarith
    · intro hlt
      have hstep : 2 * Real.sqrt x * Real.sqrt y < (d : ℝ) ^ 2 - x - y := by nlinarith
      have : 4 * (x : ℝ) * y < ((d : ℝ) ^ 2 - x - y) ^ 2 := by
        nlinarith [mul_nonneg (mul_nonneg (by norm_num : (0:ℝ) ≤ 2) hsx0) hsy0]
      exact_mod_cast this

theorem sqrtAddGt_iff (x y d : ℚ) (hx : 0 ≤ x) (hy : 0 ≤ y) :
    sqrtAddGt x y d = true ↔ (d : ℝ) < Real.sqrt x + Real.sqrt y := by
  have hxR : (0 : ℝ) ≤ (x : ℝ) := by exact_mod_cast hx
  have hyR : (0 : ℝ) ≤ (y : ℝ) := by exact_mod_cast hy
  have hsx : Real.sqrt (x : ℝ) ^ 2 = (x : ℝ) := Real.sq_sqrt hxR
  have hsy : Real.sqrt (y : ℝ) ^ 2 = (y : ℝ) := Real.sq_sqrt hyR
  have hsx0 : (0 : ℝ) ≤ Real.sqrt (x : ℝ) := Real.sqrt_nonneg _
  have hsy0 : (0 : ℝ) ≤ Real.sqrt (y : ℝ) := Real.sqrt_nonneg _
  unfold sqrtAddGt
  split_ifs with h1 h2
  · have h1R : (d : ℝ) < 0 := by exact_mod_cast h1
    simp only [true_iff]
    linarith
  · push_neg at h1
    have h1R : (0 : ℝ) ≤ (d : ℝ) := by exact_mod_cast h1
    have h2R : (0 : ℝ) < (x : ℝ) + y - d ^ 2 := by exact_mod_cast h2
    simp only [true_iff]
    by_contra hcon
    push_neg at hcon
    nlinarith [mul_nonneg hsx0 hsy0]
  · push_neg at h1 h2
    have h1R : (0 : ℝ) ≤ (d : ℝ) := by exact_mod_cast h1
    have h2R : (x : ℝ) + y - d ^ 2 ≤ 0 := by exact_mod_cast h2
    simp only [decide_eq_true_eq]
    constructor
    · intro hlt
      have hltR : ((d : ℝ) ^ 2 - x - y) ^ 2 < 4 * (x : ℝ) * y := by exact_mod_cast hlt
      have hstep : (d : ℝ) ^ 2 - x - y < 2 * Real.sqrt x * Real.sqrt y := by
        nlinarith [mul_nonneg (mul_nonneg (by norm_num : (0:ℝ) ≤ 2) hsx0) hsy0]
      nlinarith
    · intro hlt
      have hstep : (d : ℝ) ^ 2 - x - y < 2 * Real.sqrt x * Real.sqrt y := by nlinarith
      have : ((d : ℝ) ^ 2 - x - y) ^ 2 < 4 * (x : ℝ) * y := by
        nlinarith [mul_nonneg (mul_nonneg (by norm_num : (0:ℝ) ≤ 2) hsx0) hsy0]
      exact_mod_cast this

theorem sltB_iff (x d y : ℚ) :
    sltB x d y = true ↔ sgnSqrtQ x < (d : ℝ) + sgnSqrtQ y := by
  unfold sltB sgnSqrtQ
  split_ifs with hx hy hy2
  · rw [sqrtSubLt_iff x y d hx hy]
    constructor <;> intro <;> linarith
  · rw [sqrtAddLt_iff x (-y) d hx (by linarith : (0:ℚ) ≤ -y)]
    constructor <;> intro <;> linarith
  · rw [sqrtAddGt_iff (-x) y (-d) (by linarith : (0:ℚ) ≤ -x) hy2]
    push_cast
    constructor <;> intro <;> linarith
  · rw [sqrtSubLt_iff (-y) (-x) d (by linarith : (0:ℚ) ≤ -y) (by linarith : (0:ℚ) ≤ -x)]
    constructor <;> intro <;> linarith

/-- The decidable `RootQ` order agrees with the real order of the denoted
values: comparisons the embedded `heapq` makes are the true numeric
comparisons. -/
theorem RootQ.ltB_iff (a b : RootQ) : RootQ.ltB a b = true ↔ a.val < b.val := by
  unfold RootQ.ltB RootQ.val
  rw [sltB_iff]
  push_cast
  constructor <;> intro <;> linarith

theorem RootQ.val_addQ (r : ℚ) (x : RootQ) :
    (RootQ.addQ r x).val = (r : ℝ) + x.val := by
  unfold RootQ.addQ RootQ.val
  push_cast
  ring

theorem sgnSqrtQ_sq_scale (c s : ℚ) (hc : 0 ≤ c) :
    sgnSqrtQ (c ^ 2 * s) = (c : ℝ) * sgnSqrtQ s := by
  have hcR : (0 : ℝ) ≤ (c : ℝ) := by exact_mod_cast hc
  unfold sgnSqrtQ
  rcases lt_trichotomy s 0 with hs | hs | hs
  · rcases eq_or_lt_of_le hc with hc0 | hc0
    · subst hc0
      norm_num
    · have h1 : ¬ (0 : ℚ) ≤ c ^ 2 * s :=
        not_le.mpr (mul_neg_of_pos_of_neg (pow_pos hc0 2) hs)
      have h2 : ¬ (0 : ℚ) ≤ s := by linarith
      rw [if_neg h1, if_neg h2]
      have : ((-(c ^ 2 * s) : ℚ) : ℝ) = (c : ℝ) ^ 2 * ((-s : ℚ) : ℝ) := by push_cast; ring
      rw [this, Real.sqrt_mul (by positivity) _, Real.sqrt_sq hcR]
      ring
  · subst hs
    norm_num
  · have h1 : (0 : ℚ) ≤ c ^ 2 * s := by positivity
    rw [if_pos h1, if_pos hs.le]
    have : ((c ^ 2 * s : ℚ) : ℝ) = (c : ℝ) ^ 2 * ((s : ℚ) : ℝ) := by push_cast; ring
    rw [this, Real.sqrt_mul (by positivity) _, Real.sqrt_sq hcR]

theorem RootQ.val_smul (c : ℚ) (hc : 0 ≤ c) (x : RootQ) :
    (RootQ.smul c x).val = (c : ℝ) * x.val := by
  unfold RootQ.smul RootQ.val
  rw [if_pos hc]
  simp only
  rw [sgnSqrtQ_sq_scale c x.s hc]
  push_cast
  ring

/-- Scaling every `f` value by the same positive constant leaves all
priority-queue comparisons unchanged. -/
theorem RootQ.ltB_scale {c : ℚ} (hc : 0 < c) {a b a2 b2 : RootQ}
    (ha : a2.val = (c : ℝ) * a.val) (hb : b2.val = (c : ℝ) * b.val) :
    RootQ.ltB a2 b2 = RootQ.ltB a b := by
  apply Bool.coe_iff_coe.mp
  rw [RootQ.ltB_iff, RootQ.ltB_iff, ha, hb]
  have hcR : (0 : ℝ) < (c : ℝ) := by exact_mod_cast hc
  exact mul_lt_mul_left hcR

/-! ## Node-table lemmas -/

theorem ntGet_mem {t : NTab} {p : Pos} {nd : SNode} (h : ntGet t p = some nd) :
    (p, nd) ∈ t := by
  induction t with
  | nil => cases h
  | cons e t ih =>
    unfold ntGet at h
    split_ifs at h with he
    · cases h
      obtain ⟨e1, e2⟩ := e
      simp only at he
      subst he
      exact List.mem_cons_self _ _
    · exact List.mem_cons_of_mem _ (ih h)

theorem ntGet_ntSet_self (t : NTab) (p : Pos) (nd : SNode) :
    ntGet (ntSet t p nd) p = some nd := by
  induction t with
  | nil => simp [ntSet, ntGet]
  | cons e t ih =>
    unfold ntSet
    split_ifs with he
    · simp [ntGet]
    · unfold ntGet
      rw [if_neg he]
      exact ih

theorem ntGet_ntSet_ne (t : NTab) (p q : Pos) (nd : SNode) (h : q ≠ p) :
    ntGet (ntSet t p nd) q = ntGet t q := by
  induction t with
  | nil =>
    simp only [ntSet, ntGet]
    rw [if_neg (fun hq : p = q => h hq.symm)]
  | cons e t ih =>
    unfold ntSet
    split_ifs with he
    · unfold ntGet
      rw [if_neg (fun hq : p = q => h hq.symm), if_neg (he ▸ fun hq : p = q => h hq.symm)]
    · unfold ntGet
      by_cases heq : e.1 = q
      · rw [if_pos heq, if_pos heq]
      · rw [if_neg heq, if_neg heq]
        exact ih

theorem ntGet_isSome_ntSet (t : NTab) (p q : Pos) (nd : SNode)
    (h : (ntGet t q).isSome) : (ntGet (ntSet t p nd) q).isSome := by
  by_cases hq : q = p
  · subst hq
    rw [ntGet_ntSet_self]
    rfl
  · rw [ntGet_ntSet_ne t p q nd hq]
    exact h

theorem ntSet_length (t : NTab) (p : Pos) (nd : SNode) :
    t.length ≤ (ntSet t p nd).length := by
  induction t with
  | nil => simp [ntSet]
  | cons e t ih =>
    unfold ntSet
    split_ifs with he
    · simp
    · simpa using ih

/-- Distinct positions that all have table entries are at most as many as
the table's entries. -/
theorem nodup_keys_length_le (t : NTab) (ch : List Pos) (hnd : ch.Nodup)
    (hmem : ∀ q ∈ ch, (ntGet t q).isSome) : ch.length ≤ t.length := by
  have hsub : ch ⊆ t.map Prod.fst := by
    intro q hq
    have := hmem q hq
    rcases hg : ntGet t q with _ | nd
    · rw [hg] at this; cases this
    · have := ntGet_mem hg
      exact List.mem_map.mpr ⟨(q, nd), this, rfl⟩
  have := (List.subperm_of_subset hnd hsub).length_le
  simpa using this

/-! ## Heap lemmas (membership only; ordering is irrelevant to the
claims proved here) -/

theorem getD_mem_or (l : List α) (i : Nat) (d : α) :
    l.getD i d ∈ l ∨ l.getD i d = d := by
  by_cases h : i < l.length
  · left
    rw [List.getD_eq_getElem?_getD, List.getElem?_eq_getElem h]
    exact List.getElem_mem h
  · right
    rw [List.getD_eq_getElem?_getD, List.getElem?_eq_none (le_of_not_lt h)]
    rfl

theorem mem_siftdownGo (lt : α → α → Bool) (ni : α) (fuel : Nat) :
    ∀ (heap : List α) (s pos : Nat) (a : α),
      a ∈ siftdownGo lt ni fuel heap s pos → a ∈ heap ∨ a = ni := by
  induction fuel with
  | zero =>
    intro heap s pos a h
    unfold siftdownGo at h
    rcases List.mem_or_eq_of_mem_set h with h1 | h1
    · exact Or.inl h1
    · exact Or.inr h1
  | succ fuel ih =>
    intro heap s pos a h
    unfold siftdownGo at h
    split_ifs at h with h1 h2
    · rcases ih _ _ _ _ h with h3 | h3
      · rcases List.mem_or_eq_of_mem_set h3 with h4 | h4
        · exact Or.inl h4
        · rw [h4]
          rcases getD_mem_or heap ((pos - 1) / 2) ni with h5 | h5
          · exact Or.inl h5
          · exact Or.inr h5
      · exact Or.inr h3
    · rcases List.mem_or_eq_of_mem_set h with h3 | h3
      · exact Or.inl h3
      · exact Or.inr h3
    · rcases List.mem_or_eq_of_mem_set h with h3 | h3
      · exact Or.inl h3
      · exact Or.inr h3

theorem mem_siftupGo (lt : α → α → Bool) (ni : α) (fuel : Nat) :
    ∀ (heap : List α) (s pos : Nat) (a : α),
      a ∈ siftupGo lt ni fuel heap s pos → a ∈ heap ∨ a = ni := by
  induction fuel with
  | zero =>
    intro heap s pos a h
    unfold siftupGo at h
    rcases mem_siftdownGo lt ni pos _ _ _ _ h with h1 | h1
    · rcases List.mem_or_eq_of_mem_set h1 with h2 | h2
      · exact Or.inl h2
      · exact Or.inr h2
    · exact Or.inr h1
  | succ fuel ih =>
    intro heap s pos a h
    unfold siftupGo at h
    split_ifs at h with h1 h2
    · rcases ih _ _ _ _ h with h3 | h3
      · rcases List.mem_or_eq_of_mem_set h3 with h4 | h4
        · exact Or.inl h4
        · rw [h4]
          rcases getD_mem_or heap (2 * pos + 2) ni with h5 | h5
          · exact Or.inl h5
          · exact Or.inr h5
      · exact Or.inr h3
    · rcases ih _ _ _ _ h with h3 | h3
      · rcases List.mem_or_eq_of_mem_set h3 with h4 | h4
        · exact Or.inl h4
        · rw [h4]
          rcases getD_mem_or heap (2 * pos + 1) ni with h5 | h5
          · exact Or.inl h5
          · exact Or.inr h5
      · exact Or.inr h3
    · rcases mem_siftdownGo lt ni pos _ _ _ _ h with h3 | h3
      · rcases List.mem_or_eq_of_mem_set h3 with h4 | h4
        · exact Or.inl h4
        · exact Or.inr h4
      · exact Or.inr h3

theorem mem_heappush (lt : α → α → Bool) (heap : List α) (item : α) (a : α)
    (h : a ∈ heappush lt heap item) : a ∈ heap ∨ a = item := by
  unfold heappush at h
  rcases mem_siftdownGo lt item heap.length _ _ _ _ h with h1 | h1
  · rcases List.mem_append.mp h1 with h2 | h2
    · exact Or.inl h2
    · exact Or.inr (List.mem_singleton.mp h2)
  · exact Or.inr h1

theorem heappop_spec (lt : α → α → Bool) (heap : List α) (x : α) (rest : List α)
    (h : heappop lt heap = some (x, rest)) :
    x ∈ heap ∧ ∀ a ∈ rest, a ∈ heap := by
  unfold heappop at h
  rcases hL : heap.getLast? with _ | lastelt
  · rw [hL] at h; cases h
  · rw [hL] at h
    have hlmem : lastelt ∈ heap := List.mem_of_mem_getLast? hL
    split_ifs at h with hE
    · cases h
      exact ⟨hlmem, by intro a ha; cases ha⟩
    · cases h
      have hdsub : ∀ a ∈ heap.dropLast, a ∈ heap :=
        fun a ha => (List.dropLast_sublist heap).subset ha
      constructor
      · rcases hD : heap.dropLast with _ | ⟨b, t⟩
        · rw [hD] at hE; simp at hE
        · simp only [List.headD_cons]
          exact hdsub b (by rw [hD]; exact List.mem_cons_self b t)
      · intro a ha
        rcases mem_siftupGo lt lastelt _ _ _ _ _ ha with h2 | h2
        · rcases List.mem_or_eq_of_mem_set h2 with h3 | h3
          · exact hdsub a h3
          · exact h3 ▸ hlmem
        · exact h2 ▸ hlmem

/-! ## Parent-chain lemmas -/

theorem ChainOK.ntGet_self {nodes closed start cost ch p nd}
    (h : ChainOK nodes closed start cost ch p nd) : ntGet nodes p = some nd := by
  cases h with
  | base nd h1 h2 h3 => exact h1
  | step ch q qnd p nd h1 h2 h3 h4 h5 h6 h7 => exact h3

theorem ChainOK.mono {nodes closed closed' start cost ch p nd}
    (hsub : closed ⊆ closed')
    (h : ChainOK nodes closed start cost ch p nd) :
    ChainOK nodes closed' start cost ch p nd := by
  induction h with
  | base nd h1 h2 h3 => exact ChainOK.base nd h1 h2 h3
  | step ch q qnd p nd h1 h2 h3 h4 h5 h6 h7 ih =>
    exact ChainOK.step ch q qnd p nd ih (hsub h2) h3 h4 h5 h6 h7

theorem ChainOK.elem {nodes closed start cost ch p nd}
    (h : ChainOK nodes closed start cost ch p nd) :
    ∀ q ∈ ch, q = p ∨ q ∈ closed := by
  induction h with
  | base nd h1 h2 h3 =>
    intro q hq
    rcases List.mem_singleton.mp hq with h
    exact Or.inl h
  | step ch q qnd p nd h1 h2 h3 h4 h5 h6 h7 ih =>
    intro r hr
    rcases List.mem_append.mp hr with hr1 | hr1
    · rcases ih r hr1 with h8 | h8
      · exact Or.inr (h8 ▸ h2)
      · exact Or.inr h8
    · exact Or.inl (List.mem_singleton.mp hr1)

theorem ChainOK.keys {nodes closed start cost ch p nd}
    (h : ChainOK nodes closed start cost ch p nd) :
    ∀ q ∈ ch, (ntGet nodes q).isSome := by
  induction h with
  | base nd h1 h2 h3 =>
    intro q hq
    rw [List.mem_singleton.mp hq, h1]
    rfl
  | step ch q qnd p nd h1 h2 h3 h4 h5 h6 h7 ih =>
    intro r hr
    rcases List.mem_append.mp hr with hr1 | hr1
    · exact ih r hr1
    · rw [List.mem_singleton.mp hr1, h3]
      rfl

theorem ChainOK.nodup {nodes closed start cost ch p nd}
    (h : ChainOK nodes closed start cost ch p nd) : ch.Nodup := by
  induction h with
  | base nd h1 h2 h3 => exact List.nodup_singleton _
  | step ch q qnd p nd h1 h2 h3 h4 h5 h6 h7 ih =>
    rw [List.nodup_append]
    exact ⟨ih, List.nodup_singleton _, by
      intro a ha hb
      rw [List.mem_singleton.mp hb] at ha
      exact h7 ha⟩

theorem ChainOK.ne_nil {nodes closed start cost ch p nd}
    (h : ChainOK nodes closed start cost ch p nd) : ch ≠ [] := by
  cases h with
  | base nd h1 h2 h3 => simp
  | step ch q qnd p nd h1 h2 h3 h4 h5 h6 h7 => simp

theorem ChainOK.getLast {nodes closed start cost ch p nd}
    (h : ChainOK nodes closed start cost ch p nd) : ch.getLast? = some p := by
  cases h with
  | base nd h1 h2 h3 => rfl
  | step ch q qnd p nd h1 h2 h3 h4 h5 h6 h7 => exact List.getLast?_concat ch

theorem ChainOK.head {nodes closed start cost ch p nd}
    (h : ChainOK nodes closed start cost ch p nd) : ch.head? = some start := by
  induction h with
  | base nd h1 h2 h3 => rfl
  | step ch q qnd p nd h1 h2 h3 h4 h5 h6 h7 ih =>
    rcases ch with _ | ⟨a, t⟩
    · cases ih
    · simpa using ih

theorem ChainOK.ntSet_other {nodes closed start cost ch p nd} {r : Pos}
    (nd2 : SNode) (hr : r ∉ ch)
    (h : ChainOK nodes closed start cost ch p nd) :
    ChainOK (ntSet nodes r nd2) closed start cost ch p nd := by
  induction h with
  | base nd h1 h2 h3 =>
    have hsr : start ≠ r := fun he => hr (he ▸ List.mem_singleton_self start)
    exact ChainOK.base nd (by rw [ntGet_ntSet_ne nodes r start nd2 hsr]; exact h1) h2 h3
  | step ch q qnd p nd h1 h2 h3 h4 h5 h6 h7 ih =>
    have hrch : r ∉ ch := fun hm => hr (List.mem_append.mpr (Or.inl hm))
    have hrp : p ≠ r := fun he => hr (he ▸ List.mem_append.mpr (Or.inr (List.mem_singleton_self p)))
    exact ChainOK.step ch q qnd p nd (ih hrch) h2
      (by rw [ntGet_ntSet_ne nodes r p nd2 hrp]; exact h3) h4 h5 h6 h7

theorem ChainOK.chain8 {nodes closed start cost ch p nd}
    (h : ChainOK nodes closed start cost ch p nd) : Chain8 ch := by
  induction h with
  | base nd h1 h2 h3 => exact List.chain'_singleton _
  | step ch q qnd p nd h1 h2 h3 h4 h5 h6 h7 ih =>
    rw [Chain8, List.chain'_append]
    refine ⟨ih, List.chain'_singleton _, ?_⟩
    intro x hx y hy
    rw [h1.getLast] at hx
    cases hx
    rw [List.head?_cons] at hy
    cases hy
    exact h6

theorem pathCostBy_concat (cost : Pos → Pos → ℚ) :
    ∀ (ch : List Pos) (q p : Pos), ch.getLast? = some q →
      pathCostBy cost (ch ++ [p]) = pathCostBy cost ch + cost q p := by
  intro ch
  induction ch with
  | nil => intro q p h; cases h
  | cons a t ih =>
    intro q p h
    rcases t with _ | ⟨b, t2⟩
    · cases h
      simp [pathCostBy]
    · have h2 : (b :: t2).getLast? = some q := by
        rw [List.getLast?_cons_cons] at h
        exact h
      calc pathCostBy cost (a :: b :: t2 ++ [p])
          = cost a b + pathCostBy cost (b :: t2 ++ [p]) := rfl
        _ = cost a b + (pathCostBy cost (b :: t2) + cost q p) := by rw [ih q p h2]
        _ = pathCostBy cost (a :: b :: t2) + cost q p := by
            show _ = cost a b + pathCostBy cost (b :: t2) + cost q p
            ring

theorem ChainOK.cost_eq {nodes closed start cost ch p nd}
    (h : ChainOK nodes closed start cost ch p nd) :
    pathCostBy cost ch = nd.g := by
  induction h with
  | base nd h1 h2 h3 => rw [h3]; rfl
  | step ch q qnd p nd h1 h2 h3 h4 h5 h6 h7 ih =>
    rw [pathCostBy_concat cost ch q p h1.getLast, ih, h5]

theorem parentOf_eq {nodes : NTab} {p : Pos} {nd : SNode}
    (h : ntGet nodes p = some nd) : parentOf nodes p = nd.parent := by
  unfold parentOf
  rw [h]

theorem reconstruct_none (nodes : NTab) (fuel : Nat) (acc : List Pos) :
    reconstruct nodes fuel none acc = acc := by
  cases fuel <;> rfl

theorem ChainOK.reconstruct_eq {nodes closed start cost ch p nd}
    (h : ChainOK nodes closed start cost ch p nd) :
    ∀ fuel acc, ch.length ≤ fuel →
      reconstruct nodes fuel (some p) acc = ch ++ acc := by
  induction h with
  | base nd h1 h2 h3 =>
    intro fuel acc hf
    rcases fuel with _ | f
    · simp at hf
    · unfold reconstruct
      rw [parentOf_eq h1, h2, reconstruct_none]
      rfl
  | step ch q qnd p nd h1 h2 h3 h4 h5 h6 h7 ih =>
    intro fuel acc hf
    rcases fuel with _ | f
    · simp at hf
    · unfold reconstruct
      rw [parentOf_eq h3, h4, ih f (p :: acc)
        (by have := hf; simp only [List.length_append, List.length_singleton] at this; omega)]
      simp

theorem reconstructRisk_none (nodes : NTab) (rm : List (List ℚ)) (rows cols : ℤ)
    (fuel : Nat) (acc : List Pos) (tr : ℚ) :
    reconstructRisk nodes rm rows cols fuel none acc tr = (acc, tr) := by
  cases fuel <;> rfl

theorem ChainOK.reconstructRisk_eq {nodes closed start cost ch p nd}
    (h : ChainOK nodes closed start cost ch p nd)
    (rm : List (List ℚ)) (rows cols : ℤ)
    (hbnd : ∀ q ∈ ch, inBoundsP rows cols q) :
    ∀ fuel acc tr, ch.length ≤ fuel →
      reconstructRisk nodes rm rows cols fuel (some p) acc tr =
        (ch ++ acc, tr + pathRiskSum rm ch) := by
  induction h with
  | base nd h1 h2 h3 =>
    intro fuel acc tr hf
    rcases fuel with _ | f
    · simp at hf
    · unfold reconstructRisk
      have hb := hbnd start (List.mem_singleton_self start)
      unfold inBoundsP at hb
      rw [if_pos hb, parentOf_eq h1, h2, reconstructRisk_none]
      simp [pathRiskSum]
  | step ch q qnd p nd h1 h2 h3 h4 h5 h6 h7 ih =>
    intro fuel acc tr hf
    rcases fuel with _ | f
    · simp at hf
    · unfold reconstructRisk
      have hb := hbnd p (List.mem_append.mpr (Or.inr (List.mem_singleton_self p)))
      unfold inBoundsP at hb
      rw [if_pos hb, parentOf_eq h3, h4,
        ih (fun r hr => hbnd r (List.mem_append.mpr (Or.inl hr))) f (p :: acc) _
          (by have := hf; simp only [List.length_append, List.length_singleton] at this; omega)]
      simp only [List.append_assoc, List.singleton_append, Prod.mk.injEq, true_and]
      unfold pathRiskSum
      rw [List.map_append, List.sum_append]
      simp
      ring

/-! ## Neighbor-generation facts -/

theorem step8_shift (p : Pos) (dx dy : ℤ) (h1 : |dx| ≤ 1) (h2 : |dy| ≤ 1)
    (h3 : ¬(dx = 0 ∧ dy = 0)) : step8 p (p.1 + dx, p.2 + dy) := by
  unfold step8
  have e1 : p.1 + dx - p.1 = dx := by ring
  have e2 : p.2 + dy - p.2 = dy := by ring
  refine ⟨by rw [e1]; exact h1, by rw [e2]; exact h2, ?_⟩
  intro hc
  exact h3 ⟨by omega, by omega⟩

theorem get_neighbors_spec {grid : List (List ℤ)} {blocked : List Pos} {p nb : Pos}
    (h : nb ∈ get_neighbors grid blocked p) :
    step8 p nb ∧ 0 ≤ nb.1 ∧ nb.1 < (grid.length : ℤ) ∧ 0 ≤ nb.2 ∧
      nb.2 < ((grid.headD []).length : ℤ) ∧ nb ∉ blocked ∧
      cellAt grid nb.1 nb.2 = 0 := by
  unfold get_neighbors at h
  simp only [List.mem_filterMap] at h
  obtain ⟨d, hd, hsome⟩ := h
  split_ifs at hsome with hcond
  · cases hsome
    obtain ⟨hb1, hb2, hb3, hb4, hb5, hb6⟩ := hcond
    have hdp : |d.1| ≤ 1 ∧ |d.2| ≤ 1 ∧ ¬(d.1 = 0 ∧ d.2 = 0) := by
      fin_cases hd <;> exact (by decide)
    exact ⟨step8_shift p d.1 d.2 hdp.1 hdp.2.1 hdp.2.2, hb1, hb2, hb3, hb4, hb5, hb6⟩

/-! ## Invariant preservation -/

theorem gOf_eq {nodes : NTab} {p : Pos} {nd : SNode}
    (h : ntGet nodes p = some nd) : gOf nodes p = nd.g := by
  unfold gOf
  rw [h]

theorem gexpand_inv {grid : List (List ℤ)} {blocked : List Pos} {start : Pos}
    {cost : Pos → Pos → ℚ} {good : Pos → Prop} (hfun : Pos → RootQ)
    {closed1 : List Pos} {cur : Pos} {curnd : SNode}
    (hstart_cl : start ∈ closed1) (hcur_cl : cur ∈ closed1) :
    ∀ (ns : List Pos) (heap : List Pos) (nodes : NTab),
      (∀ nb ∈ ns, good nb ∧ step8 cur nb) →
      SInv grid blocked start cost good heap closed1 nodes →
      ntGet nodes cur = some curnd →
      SInv grid blocked start cost good
        (gexpand cost hfun closed1 cur curnd.g ns (heap, nodes)).1 closed1
        (gexpand cost hfun closed1 cur curnd.g ns (heap, nodes)).2 ∧
      ntGet (gexpand cost hfun closed1 cur curnd.g ns (heap, nodes)).2 cur = some curnd := by
  intro ns
  induction ns with
  | nil =>
    intro heap nodes hns inv hcur
    exact ⟨inv, hcur⟩
  | cons nb rest ih =>
    intro heap nodes hns inv hcur
    have hnb_good : good nb := (hns nb (List.mem_cons_self nb rest)).1
    have hnb_step : step8 cur nb := (hns nb (List.mem_cons_self nb rest)).2
    have hrest : ∀ x ∈ rest, good x ∧ step8 cur x :=
      fun x hx => hns x (List.mem_cons_of_mem nb hx)
    by_cases hmem : nb ∈ closed1
    · simp only [gexpand, if_pos hmem]
      exact ih heap nodes hrest inv hcur
    · have hnb_cur : nb ≠ cur := fun he => hmem (he ▸ hcur_cl)
      have hnb_start : nb ≠ start := fun he => hmem (he ▸ hstart_cl)
      have hupdate : ∀ (heap2 : List Pos),
          (∀ a ∈ heap2, a ∈ heap ∨ a = nb) →
          SInv grid blocked start cost good heap2 closed1
            (ntSet nodes nb ⟨curnd.g + cost cur nb, hfun nb, some cur⟩) ∧
          ntGet (ntSet nodes nb ⟨curnd.g + cost cur nb, hfun nb, some cur⟩) cur =
            some curnd := by
        intro heap2 hheap2
        have hget_self := ntGet_ntSet_self nodes nb ⟨curnd.g + cost cur nb, hfun nb, some cur⟩
        have hcur2 : ntGet (ntSet nodes nb ⟨curnd.g + cost cur nb, hfun nb, some cur⟩) cur =
            some curnd := by
          rw [ntGet_ntSet_ne nodes nb cur _ (fun he => hnb_cur he.symm)]
          exact hcur
        refine ⟨⟨?_, ?_, ?_, ?_, ?_⟩, hcur2⟩
        · intro p nd2 hp
          by_cases hpe : p = nb
          · exact hpe ▸ hnb_good
          · rw [ntGet_ntSet_ne nodes nb p _ hpe] at hp
            exact inv.good_keys p nd2 hp
        · intro p nd2 hp
          by_cases hpe : p = nb
          · subst hpe
            rw [hget_self] at hp
            cases hp
            obtain ⟨chc, hchc⟩ := inv.chains cur curnd hcur
            have hnotin : p ∉ chc := by
              intro hin
              rcases hchc.elem p hin with he | he
              · exact hnb_cur he
              · exact hmem he
            have hchc2 := hchc.ntSet_other ⟨curnd.g + cost cur p, hfun p, some cur⟩ hnotin
            exact ⟨chc ++ [p],
              ChainOK.step chc cur curnd p _ hchc2 hcur_cl hget_self rfl rfl hnb_step hnotin⟩
          · rw [ntGet_ntSet_ne nodes nb p _ hpe] at hp
            obtain ⟨ch, hch⟩ := inv.chains p nd2 hp
            have hnotin : nb ∉ ch := by
              intro hin
              rcases hch.elem nb hin with he | he
              · exact hpe he.symm
              · exact hmem he
            exact ⟨ch, hch.ntSet_other _ hnotin⟩
        · intro p hp
          rcases hheap2 p hp with h1 | h1
          · exact ntGet_isSome_ntSet nodes nb p _ (inv.heap_keys p h1)
          · rw [h1, hget_self]
            rfl
        · obtain ⟨nd0, h0, h1, h2⟩ := inv.start_entry
          exact ⟨nd0, by
            rw [ntGet_ntSet_ne nodes nb start _ (fun he => hnb_start he.symm)]
            exact h0, h1, h2⟩
        · exact Or.inl hstart_cl
      rcases hg : ntGet nodes nb with _ | nd
      · simp only [gexpand, if_neg hmem, hg]
        have hstep := hupdate
          (heappush (heapLt (ntSet nodes nb ⟨curnd.g + cost cur nb, hfun nb, some cur⟩)) heap nb)
          (fun a ha => mem_heappush _ heap nb a ha)
        exact ih _ _ hrest hstep.1 hstep.2
      · simp only [gexpand, if_neg hmem, hg]
        by_cases hlt : curnd.g + cost cur nb < nd.g
        · rw [if_pos hlt]
          have hstep := hupdate
            (heappush (heapLt (ntSet nodes nb ⟨curnd.g + cost cur nb, hfun nb, some cur⟩)) heap nb)
            (fun a ha => mem_heappush _ heap nb a ha)
          exact ih _ _ hrest hstep.1 hstep.2
        · rw [if_neg hlt]
          exact ih heap nodes hrest inv hcur

theorem gloop_spec {grid : List (List ℤ)} {blocked : List Pos} {start : Pos}
    {cost : Pos → Pos → ℚ} {good : Pos → Prop} {goalx goaly : ℤ}
    (hfun : Pos → RootQ)
    (hnb_good : ∀ p nb, nb ∈ get_neighbors grid blocked p → good nb) :
    ∀ (fuel : Nat) (heap closed : List Pos) (nodes : NTab) (cur : Pos) (fnodes : NTab),
      SInv grid blocked start cost good heap closed nodes →
      gloop grid blocked goalx goaly cost hfun fuel (heap, closed, nodes) = some (cur, fnodes) →
      cur.1 = goalx ∧ cur.2 = goaly ∧
      (∀ p nd2, ntGet fnodes p = some nd2 → good p) ∧
      ∃ nd ch closedF, ntGet fnodes cur = some nd ∧
        ChainOK fnodes closedF start cost ch cur nd := by
  intro fuel
  induction fuel with
  | zero =>
    intro heap closed nodes cur fnodes inv hloop
    cases hloop
  | succ fuel ih =>
    intro heap closed nodes cur fnodes inv hloop
    rcases hpop : heappop (heapLt nodes) heap with _ | ⟨cur0, heap1⟩
    · rw [gloop] at hloop
      simp only [hpop] at hloop
      exact Option.noConfusion hloop
    · rw [gloop] at hloop
      simp only [hpop] at hloop
      have hpopspec := heappop_spec (heapLt nodes) heap cur0 heap1 hpop
      have hcur0some := inv.heap_keys cur0 hpopspec.1
      rcases hcurnd : ntGet nodes cur0 with _ | curnd
      · rw [hcurnd] at hcur0some
        cases hcur0some
      · by_cases hgoal : cur0.1 = goalx ∧ cur0.2 = goaly
        · rw [if_pos hgoal] at hloop
          have he := Option.some.inj hloop
          have hc : cur0 = cur := congrArg Prod.fst he
          have hn : nodes = fnodes := congrArg Prod.snd he
          subst hc
          subst hn
          obtain ⟨ch, hch⟩ := inv.chains cur0 curnd hcurnd
          exact ⟨hgoal.1, hgoal.2, inv.good_keys, curnd, ch, closed, hcurnd, hch⟩
        · rw [if_neg hgoal] at hloop
          have hstart_cl : start ∈ cur0 :: closed := by
            rcases inv.phase with hph | ⟨hph1, hph2⟩
            · exact List.mem_cons_of_mem cur0 hph
            · rw [hph2] at hpopspec
              have : cur0 = start := List.mem_singleton.mp hpopspec.1
              rw [this]
              exact List.mem_cons_self _ _
          have hinv1 : SInv grid blocked start cost good heap1 (cur0 :: closed) nodes := by
            refine ⟨inv.good_keys, ?_, ?_, inv.start_entry, Or.inl hstart_cl⟩
            · intro p nd2 hp
              obtain ⟨ch, hch⟩ := inv.chains p nd2 hp
              exact ⟨ch, hch.mono (List.subset_cons_self cur0 closed)⟩
            · intro p hp
              exact inv.heap_keys p (hpopspec.2 p hp)
          have hns : ∀ nb ∈ get_neighbors grid blocked cur0, good nb ∧ step8 cur0 nb :=
            fun nb hnb => ⟨hnb_good cur0 nb hnb, (get_neighbors_spec hnb).1⟩
          have hgof : gOf nodes cur0 = curnd.g := gOf_eq hcurnd
          rw [hgof] at hloop
          have hexp := gexpand_inv hfun hstart_cl (List.mem_cons_self cur0 closed)
            (get_neighbors grid blocked cur0) heap1 nodes hns hinv1 hcurnd
          exact ih _ _ _ _ _ hexp.1 hloop

/-! ## Claim theorems -/

/-- C2: on an empty grid (zero rows) both `find_path` and
`find_path_with_risk` return the no-path sentinel (empty path, infinite
cost(s), length 0) for every start, goal, blocked list, risk map and
safety weight; the embedding is total, so no exception is possible. -/
theorem claim_C2_empty_grid_sentinel (start goal : Pos)
    (blocked : Option (List Pos)) (risk_map : Option (List (List ℚ))) (w : ℚ) :
    find_path [] start goal blocked = ([], ⊤, 0) ∧
    find_path_with_risk [] start goal risk_map blocked w = ([], ⊤, ⊤, 0) :=
  ⟨rfl, rfl⟩

/-- C9: the `"shortest"` entry of `compare_routes` always reports risk
`0.0`, whatever the supplied risk map and the actual risk on the shortest
path's cells. -/
theorem claim_C9_shortest_risk_zero (grid : List (List ℤ)) (start goal : Pos)
    (risk_map : Option (List (List ℚ))) (blocked : Option (List Pos)) :
    (compare_routes grid start goal risk_map blocked).shortest.risk = ((0 : ℚ) : WithTop ℚ) :=
  rfl

/-- C10: `compare_routes` with an empty-list risk map behaves exactly as if
no risk map were supplied (the `if risk_map:` truthiness test rejects `[]`,
so the risk-weighted search is never run and `safest`/`balanced` carry the
`shortest` result with zero risk). -/
theorem claim_C10_empty_risk_map (grid : List (List ℤ)) (start goal : Pos)
    (blocked : Option (List Pos)) :
    compare_routes grid start goal (some []) blocked =
      compare_routes grid start goal none blocked := by
  unfold compare_routes
  rw [show riskTruthy (some []) = false from rfl, show riskTruthy none = false from rfl]
  simp only [Bool.false_eq_true, if_false]

/-- C8: for every non-empty grid and every in-bounds, free, un-blocked
position `p`, `find_path` with `start = goal = p` returns the
single-element path `[p]`, total cost `0` and length `0` (the start node
is popped first, immediately matches the goal, and reconstruction stops at
its `None` parent). -/
theorem claim_C8_start_eq_goal (grid : List (List ℤ)) (p : Pos)
    (blocked : Option (List Pos))
    (hb : 0 ≤ p.1 ∧ p.1 < (grid.length : ℤ) ∧ 0 ≤ p.2 ∧
      p.2 < ((grid.headD []).length : ℤ))
    (hfree : cellAt grid p.1 p.2 = 0)
    (hblock : p ∉ blocked.getD []) :
    find_path grid p p blocked = ([p], ((0 : ℚ) : WithTop ℚ), 0) := by
  have hlen : ¬ grid.length = 0 := by
    intro h0
    rw [h0] at hb
    have := hb.2.1
    norm_num at this
    omega
  have hnotvalid : ¬ (p ∈ blocked.getD [] ∨ cellAt grid p.1 p.2 = 1) := by
    intro hc
    rcases hc with hc | hc
    · exact hblock hc
    · rw [hfree] at hc
      cases hc
  unfold find_path
  rw [if_neg hlen, if_neg (not_not_intro hb), if_neg (not_not_intro hb),
    if_neg hnotvalid, if_neg hnotvalid]
  obtain ⟨f, hf⟩ : ∃ f, fuelFor grid = f + 1 := by
    refine ⟨fuelFor grid - 1, ?_⟩
    have : 0 < fuelFor grid := by
      unfold fuelFor
      positivity
    omega
  rw [hf, gloop]
  rw [show heappop (heapLt [(p, ⟨0, heuristic p.1 p.2 p.1 p.2, none⟩)]) [p] =
    some (p, []) from rfl]
  simp only [eq_self_iff_true, and_self, if_true]
  show packResult [(p, ⟨0, heuristic p.1 p.2 p.1 p.2, none⟩)] p =
    ([p], ((0 : ℚ) : WithTop ℚ), 0)
  unfold packResult reconstruct parentOf ntGet gOf
  simp [reconstruct_none, ntGet]

/-- Closed witness for C8: a concrete 1×1 free grid with `start = goal`. -/
theorem claim_C8_start_eq_goal_witness :
    find_path [[0]] (0, 0) (0, 0) none = ([(0, 0)], ((0 : ℚ) : WithTop ℚ), 0) :=
  claim_C8_start_eq_goal [[0]] (0, 0) none (by decide) (by decide) (by decide)

/-- C5: every non-empty path returned by `find_path` moves in single
8-connected steps, stays in bounds, avoids obstacle cells (cell value `1`)
and the blocked set, and its reported total cost is exactly the sum of the
per-edge distance costs along the path. -/
theorem claim_C5_path_valid_cost_sum (grid : List (List ℤ)) (start goal : Pos)
    (blocked : Option (List Pos)) (path : List Pos) (cost : WithTop ℚ) (len : ℤ)
    (heq : find_path grid start goal blocked = (path, cost, len))
    (hne : path ≠ []) :
    Chain8 path ∧
    (∀ q ∈ path, (0 ≤ q.1 ∧ q.1 < (grid.length : ℤ) ∧ 0 ≤ q.2 ∧
        q.2 < ((grid.headD []).length : ℤ)) ∧
      q ∉ blocked.getD [] ∧ cellAt grid q.1 q.2 ≠ 1) ∧
    cost = ((pathCost path : ℚ) : WithTop ℚ) := by
  unfold find_path at heq
  by_cases h1 : grid.length = 0
  · rw [if_pos h1] at heq
    exact absurd (congrArg (fun t => t.1) heq).symm hne
  rw [if_neg h1] at heq
  by_cases h2 : ¬ (0 ≤ start.1 ∧ start.1 < (grid.length : ℤ) ∧ 0 ≤ start.2 ∧
      start.2 < ((grid.headD []).length : ℤ))
  · rw [if_pos h2] at heq
    exact absurd (congrArg (fun t => t.1) heq).symm hne
  rw [if_neg h2] at heq
  by_cases h3 : ¬ (0 ≤ goal.1 ∧ goal.1 < (grid.length : ℤ) ∧ 0 ≤ goal.2 ∧
      goal.2 < ((grid.headD []).length : ℤ))
  · rw [if_pos h3] at heq
    exact absurd (congrArg (fun t => t.1) heq).symm hne
  rw [if_neg h3] at heq
  by_cases h4 : start ∈ blocked.getD [] ∨ cellAt grid start.1 start.2 = 1
  · rw [if_pos h4] at heq
    exact absurd (congrArg (fun t => t.1) heq).symm hne
  rw [if_neg h4] at heq
  by_cases h5 : goal ∈ blocked.getD [] ∨ cellAt grid goal.1 goal.2 = 1
  · rw [if_pos h5] at heq
    exact absurd (congrArg (fun t => t.1) heq).symm hne
  rw [if_neg h5] at heq
  · push_neg at h2 h3 h4 h5
    rcases hloop : gloop grid (blocked.getD []) goal.1 goal.2
        (fun a b => calculate_cost a.1 a.2 b.1 b.2)
        (fun p => heuristic p.1 p.2 goal.1 goal.2)
        (fuelFor grid)
        ([start], [], [(start, ⟨0, heuristic start.1 start.2 goal.1 goal.2, none⟩)]) with
      _ | ⟨cur, fnodes⟩
    · simp only [hloop] at heq
      exact absurd (congrArg (fun t => t.1) heq).symm hne
    · simp only [hloop] at heq
      have hsingle : ∀ (q : Pos) (nd2 : SNode),
          ntGet [(start, (⟨0, heuristic start.1 start.2 goal.1 goal.2, none⟩ : SNode))] q =
            some nd2 →
          q = start ∧ nd2 = ⟨0, heuristic start.1 start.2 goal.1 goal.2, none⟩ := by
        intro q nd2 hq
        unfold ntGet at hq
        split_ifs at hq with he
        · cases hq
          exact ⟨he.symm, rfl⟩
        · cases hq
      have hstart_good : (0 ≤ start.1 ∧ start.1 < (grid.length : ℤ) ∧ 0 ≤ start.2 ∧
          start.2 < ((grid.headD []).length : ℤ)) ∧
          start ∉ blocked.getD [] ∧ cellAt grid start.1 start.2 ≠ 1 :=
        ⟨h2, h4.1, h4.2⟩
      have hinv : SInv grid (blocked.getD []) start
          (fun a b => calculate_cost a.1 a.2 b.1 b.2)
          (fun q => (0 ≤ q.1 ∧ q.1 < (grid.length : ℤ) ∧ 0 ≤ q.2 ∧
            q.2 < ((grid.headD []).length : ℤ)) ∧
            q ∉ blocked.getD [] ∧ cellAt grid q.1 q.2 ≠ 1)
          [start] []
          [(start, ⟨0, heuristic start.1 start.2 goal.1 goal.2, none⟩)] := by
        refine ⟨?_, ?_, ?_, ?_, Or.inr ⟨rfl, rfl⟩⟩
        · intro p nd2 hp
          rcases hsingle p nd2 hp with ⟨he, _⟩
          exact he ▸ hstart_good
        · intro p nd2 hp
          rcases hsingle p nd2 hp with ⟨he, hnd⟩
          subst he
          subst hnd
          exact ⟨[p], ChainOK.base _ (by unfold ntGet; rw [if_pos rfl]) rfl rfl⟩
        · intro p hp
          rw [List.mem_singleton.mp hp]
          unfold ntGet
          rw [if_pos rfl]
          rfl
        · exact ⟨_, by unfold ntGet; rw [if_pos rfl], rfl, rfl⟩
      have hspec := gloop_spec _
        (fun p nb hnb => by
          have := get_neighbors_spec hnb
          exact ⟨⟨this.2.1, this.2.2.1, this.2.2.2.1, this.2.2.2.2.1⟩,
            this.2.2.2.2.2.1, by rw [this.2.2.2.2.2.2]; decide⟩)
        (fuelFor grid) [start] []
        [(start, ⟨0, heuristic start.1 start.2 goal.1 goal.2, none⟩)]
        cur fnodes hinv hloop
      obtain ⟨hgx, hgy, hgood, nd, ch, closedF, hnd, hch⟩ := hspec
      have hlen_ch : ch.length ≤ fnodes.length + 1 := by
        have := nodup_keys_length_le fnodes ch hch.nodup hch.keys
        omega
      have hrec : reconstruct fnodes (fnodes.length + 1) (some cur) [] = ch := by
        rw [hch.reconstruct_eq (fnodes.length + 1) [] hlen_ch]
        simp
      unfold packResult at heq
      rw [hrec] at heq
      have hpath : path = ch := (congrArg (fun t => t.1) heq).symm
      subst hpath
      have hcost : cost = ((gOf fnodes cur : ℚ) : WithTop ℚ) :=
        (congrArg (fun t => t.2.1) heq).symm
      refine ⟨hch.chain8, ?_, ?_⟩
      · intro q hq
        have hsome := hch.keys q hq
        rcases hq2 : ntGet fnodes q with _ | nd2
        · rw [hq2] at hsome
          cases hsome
        · exact hgood q nd2 hq2
      · rw [hcost, gOf_eq hnd]
        unfold pathCost
        rw [hch.cost_eq]

/-- Closed witness for C5: the concrete 2×2 all-free run from `(0,0)` to
`(1,1)` returns the diagonal path, which satisfies all three conclusions. -/
theorem claim_C5_path_valid_cost_sum_witness :
    Chain8 [((0 : ℤ), (0 : ℤ)), ((1 : ℤ), (1 : ℤ))] ∧
    (∀ q ∈ [((0 : ℤ), (0 : ℤ)), ((1 : ℤ), (1 : ℤ))],
      (0 ≤ q.1 ∧ q.1 < (([[0, 0], [0, 0]] : List (List ℤ)).length : ℤ) ∧ 0 ≤ q.2 ∧
        q.2 < ((([[0, 0], [0, 0]] : List (List ℤ)).headD []).length : ℤ)) ∧
      q ∉ (none : Option (List Pos)).getD [] ∧
      cellAt [[0, 0], [0, 0]] q.1 q.2 ≠ 1) ∧
    (((1414 / 1000 : ℚ) : WithTop ℚ) =
      ((pathCost [((0 : ℤ), (0 : ℤ)), ((1 : ℤ), (1 : ℤ))] : ℚ) : WithTop ℚ)) :=
  claim_C5_path_valid_cost_sum [[0, 0], [0, 0]] (0, 0) (1, 1) none
    [(0, 0), (1, 1)] ((1414 / 1000 : ℚ) : WithTop ℚ) 1 (by decide) (by decide)

/-- C7: whenever `find_path_with_risk` returns a non-empty path, the
returned `risk_cost` is exactly the sum of the unscaled risk-map values
over every cell of the path, start and goal included (the reconstruction
loop adds `risk_map[cell]` for each visited cell, and every cell of a
parent chain is in bounds). -/
theorem claim_C7_risk_sum (grid : List (List ℤ)) (start goal : Pos)
    (rmO : Option (List (List ℚ))) (blocked : Option (List Pos)) (w : ℚ)
    (path : List Pos) (d r : WithTop ℚ) (len : ℤ)
    (heq : find_path_with_risk grid start goal rmO blocked w = (path, d, r, len))
    (hne : path ≠ []) :
    r = ((pathRiskSum (defaultRM grid rmO) path : ℚ) : WithTop ℚ) := by
  unfold find_path_with_risk at heq
  by_cases h1 : grid.length = 0
  · rw [if_pos h1] at heq
    exact absurd (congrArg (fun t => t.1) heq).symm hne
  rw [if_neg h1] at heq
  by_cases h2 : ¬ (0 ≤ start.1 ∧ start.1 < (grid.length : ℤ) ∧ 0 ≤ start.2 ∧
      start.2 < ((grid.headD []).length : ℤ))
  · rw [if_pos h2] at heq
    exact absurd (congrArg (fun t => t.1) heq).symm hne
  rw [if_neg h2] at heq
  by_cases h3 : ¬ (0 ≤ goal.1 ∧ goal.1 < (grid.length : ℤ) ∧ 0 ≤ goal.2 ∧
      goal.2 < ((grid.headD []).length : ℤ))
  · rw [if_pos h3] at heq
    exact absurd (congrArg (fun t => t.1) heq).symm hne
  rw [if_neg h3] at heq
  push_neg at h2 h3
  rcases hloop : gloop grid (blocked.getD []) goal.1 goal.2
      (riskCost (defaultRM grid rmO) grid.length (grid.headD []).length w)
      (fun p => riskHeuristic (defaultRM grid rmO) grid.length (grid.headD []).length
        w p.1 p.2 goal.1 goal.2)
      (fuelFor grid)
      ([start], [],
       [(start, ⟨0, riskHeuristic (defaultRM grid rmO) grid.length
          (grid.headD []).length w start.1 start.2 goal.1 goal.2, none⟩)]) with
    _ | ⟨cur, fnodes⟩
  · simp only [hloop] at heq
    exact absurd (congrArg (fun t => t.1) heq).symm hne
  · simp only [hloop] at heq
    have hsingle : ∀ (q : Pos) (nd2 : SNode),
        ntGet [(start, (⟨0, riskHeuristic (defaultRM grid rmO) grid.length
            (grid.headD []).length w start.1 start.2 goal.1 goal.2, none⟩ : SNode))] q =
          some nd2 →
        q = start := by
      intro q nd2 hq
      unfold ntGet at hq
      split_ifs at hq with he
      · exact he.symm
      · cases hq
    have hinv : SInv grid (blocked.getD []) start
        (riskCost (defaultRM grid rmO) grid.length (grid.headD []).length w)
        (fun q => inBoundsP (grid.length : ℤ) ((grid.headD []).length : ℤ) q)
        [start] []
        [(start, ⟨0, riskHeuristic (defaultRM grid rmO) grid.length
          (grid.headD []).length w start.1 start.2 goal.1 goal.2, none⟩)] := by
      refine ⟨?_, ?_, ?_, ?_, Or.inr ⟨rfl, rfl⟩⟩
      · intro p nd2 hp
        rw [hsingle p nd2 hp]
        exact h2
      · intro p nd2 hp
        have he := hsingle p nd2 hp
        subst he
        unfold ntGet at hp
        rw [if_pos rfl] at hp
        cases hp
        exact ⟨[p], ChainOK.base _ (by unfold ntGet; rw [if_pos rfl]) rfl rfl⟩
      · intro p hp
        rw [List.mem_singleton.mp hp]
        unfold ntGet
        rw [if_pos rfl]
        rfl
      · exact ⟨_, by unfold ntGet; rw [if_pos rfl], rfl, rfl⟩
    have hspec := gloop_spec _
      (fun p nb hnb => by
        have := get_neighbors_spec hnb
        exact ⟨this.2.1, this.2.2.1, this.2.2.2.1, this.2.2.2.2.1⟩)
      (fuelFor grid) [start] []
      [(start, ⟨0, riskHeuristic (defaultRM grid rmO) grid.length
        (grid.headD []).length w start.1 start.2 goal.1 goal.2, none⟩)]
      cur fnodes hinv hloop
    obtain ⟨hgx, hgy, hgood, nd, ch, closedF, hnd, hch⟩ := hspec
    have hbnd : ∀ q ∈ ch, inBoundsP (grid.length : ℤ) ((grid.headD []).length : ℤ) q := by
      intro q hq
      have hsome := hch.keys q hq
      rcases hq2 : ntGet fnodes q with _ | nd2
      · rw [hq2] at hsome
        cases hsome
      · exact hgood q nd2 hq2
    have hlen_ch : ch.length ≤ fnodes.length + 1 := by
      have := nodup_keys_length_le fnodes ch hch.nodup hch.keys
      omega
    have hrec := hch.reconstructRisk_eq (defaultRM grid rmO) (grid.length : ℤ)
      ((grid.headD []).length : ℤ) hbnd (fnodes.length + 1) [] 0 hlen_ch
    unfold packResultRisk at heq
    rw [hrec] at heq
    have hpath : path = ch ++ [] := (congrArg (fun t => t.1) heq).symm
    have hr : r = (((0 + pathRiskSum (defaultRM grid rmO) ch : ℚ)) : WithTop ℚ) :=
      (congrArg (fun t => t.2.2.1) heq).symm
    rw [hpath, hr]
    norm_num

/-- Closed witness for C7: a concrete 2×2 run with a nonzero risk map;
the diagonal path `[(0,0), (1,1)]` carries risk `0.1 + 0.4 = 0.5`. -/
theorem claim_C7_risk_sum_witness :
    ((5 / 10 : ℚ) : WithTop ℚ) =
      ((pathRiskSum (defaultRM [[0, 0], [0, 0]]
          (some [[1 / 10, 2 / 10], [3 / 10, 4 / 10]]))
          [((0 : ℤ), (0 : ℤ)), ((1 : ℤ), (1 : ℤ))] : ℚ) : WithTop ℚ) :=
  claim_C7_risk_sum [[0, 0], [0, 0]] (0, 0) (1, 1)
    (some [[1 / 10, 2 / 10], [3 / 10, 4 / 10]]) none (5 / 10)
    [(0, 0), (1, 1)] ((2707 / 1000 : ℚ) : WithTop ℚ) ((5 / 10 : ℚ) : WithTop ℚ) 1
    (by decide) (by decide)

/-- C3 counterexample: `find_path_with_risk` performs no obstacle/blocked
validation of `start`/`goal`.  With the start cell an obstacle (`grid[0][0]
= 1`, in bounds) it still returns a non-sentinel path through that cell,
refuting the claim that both functions return the no-path sentinel. -/
theorem claim_C3_counterexample :
    cellAt [[1, 0], [0, 0]] 0 0 = 1 ∧
    find_path_with_risk [[1, 0], [0, 0]] (0, 0) (1, 1) none none (5 / 10) =
      ([(0, 0), (1, 1)], ((707 / 1000 : ℚ) : WithTop ℚ), ((0 : ℚ) : WithTop ℚ), 1) := by
  decide

/-- C3 amended: `find_path` does return the no-path sentinel whenever the
start or goal is on an obstacle cell or in the blocked set
(`find_path_with_risk` validates only grid bounds, as the counterexample
shows). -/
theorem claim_C3_amended_find_path_validation (grid : List (List ℤ))
    (start goal : Pos) (blocked : Option (List Pos))
    (h : start ∈ blocked.getD [] ∨ cellAt grid start.1 start.2 = 1 ∨
      goal ∈ blocked.getD [] ∨ cellAt grid goal.1 goal.2 = 1) :
    find_path grid start goal blocked = ([], ⊤, 0) := by
  unfold find_path
  by_cases h1 : grid.length = 0
  · rw [if_pos h1]
  rw [if_neg h1]
  by_cases h2 : ¬ (0 ≤ start.1 ∧ start.1 < (grid.length : ℤ) ∧ 0 ≤ start.2 ∧
      start.2 < ((grid.headD []).length : ℤ))
  · rw [if_pos h2]
  rw [if_neg h2]
  by_cases h3 : ¬ (0 ≤ goal.1 ∧ goal.1 < (grid.length : ℤ) ∧ 0 ≤ goal.2 ∧
      goal.2 < ((grid.headD []).length : ℤ))
  · rw [if_pos h3]
  rw [if_neg h3]
  by_cases h4 : start ∈ blocked.getD [] ∨ cellAt grid start.1 start.2 = 1
  · rw [if_pos h4]
  rw [if_neg h4]
  by_cases h5 : goal ∈ blocked.getD [] ∨ cellAt grid goal.1 goal.2 = 1
  · rw [if_pos h5]
  exfalso
  push_neg at h4 h5
  rcases h with h | h | h | h
  · exact h4.1 h
  · exact h4.2 h
  · exact h5.1 h
  · exact h5.2 h

/-- Closed witness for the amended C3: a start on an obstacle cell makes
`find_path` return the sentinel. -/
theorem claim_C3_amended_find_path_validation_witness :
    find_path [[1, 0], [0, 0]] (0, 0) (1, 1) none = ([], ⊤, 0) :=
  claim_C3_amended_find_path_validation [[1, 0], [0, 0]] (0, 0) (1, 1) none
    (Or.inr (Or.inl (by decide)))

/-- C4 counterexample: the diagonal per-edge cost of the source is the
literal `1.414`, which is neither the claimed constant `1.41421356…` nor
`√2` (its square is not 2). -/
theorem claim_C4_counterexample :
    calculate_cost 0 0 1 1 = 1414 / 1000 ∧
    ¬ (calculate_cost 0 0 1 1 = 141421356 / 100000000) ∧
    (calculate_cost 0 0 1 1) ^ 2 ≠ 2 := by
  decide

/-- C4 amended: the per-edge cost is exactly `1.0` for an orthogonal move
and exactly the literal `1.414` for a diagonal move; consequently the 5×5
all-free run from `(0,0)` to `(4,4)` returns the four-step diagonal with
total cost `5.656 = 4 × 1.414` (not `4 × 1.41421356 ≈ 5.657`). -/
theorem claim_C4_amended_diagonal_run :
    calculate_cost 0 0 0 1 = 1 ∧
    calculate_cost 0 0 1 1 = 1414 / 1000 ∧
    find_path (List.replicate 5 (List.replicate 5 0)) (0, 0) (4, 4) none =
      ([(0, 0), (1, 1), (2, 2), (3, 3), (4, 4)],
        ((5656 / 1000 : ℚ) : WithTop ℚ), 4) := by
  decide

/-! ## Zero-risk equivalence: table relation lemmas -/

theorem TabRel.ntGet_rel {c : ℚ} {tp tr : NTab} (h : TabRel c tp tr) (p : Pos) :
    (ntGet tp p = none ∧ ntGet tr p = none) ∨
    ∃ pn rn, ntGet tp p = some pn ∧ ntGet tr p = some rn ∧ NodeRel c pn rn := by
  induction h with
  | nil => exact Or.inl ⟨rfl, rfl⟩
  | cons hab hrest ih =>
    rename_i a b tp2 tr2
    obtain ⟨hkey, hrel⟩ := hab
    unfold ntGet
    by_cases hp : a.1 = p
    · rw [if_pos hp, if_pos (hkey ▸ hp)]
      exact Or.inr ⟨a.2, b.2, rfl, rfl, hrel⟩
    · rw [if_neg hp, if_neg (hkey ▸ hp)]
      exact ih

theorem TabRel.ntSet_rel {c : ℚ} {tp tr : NTab} (h : TabRel c tp tr)
    {pn rn : SNode} (hrel : NodeRel c pn rn) (p : Pos) :
    TabRel c (ntSet tp p pn) (ntSet tr p rn) := by
  induction h with
  | nil =>
    exact List.Forall₂.cons ⟨rfl, hrel⟩ List.Forall₂.nil
  | cons hab hrest ih =>
    rename_i a b tp2 tr2
    obtain ⟨hkey, hab2⟩ := hab
    unfold ntSet
    by_cases hp : a.1 = p
    · rw [if_pos hp, if_pos (hkey ▸ hp)]
      exact List.Forall₂.cons ⟨rfl, hrel⟩ hrest
    · rw [if_neg hp, if_neg (hkey ▸ hp)]
      exact List.Forall₂.cons ⟨hkey, hab2⟩ ih

theorem RootQ.val_zero : (RootQ.mk 0 0).val = 0 := by
  unfold RootQ.val sgnSqrtQ
  norm_num

theorem TabRel.fOf_rel {c : ℚ} {tp tr : NTab} (h : TabRel c tp tr) (p : Pos) :
    (fOf tr p).val = (c : ℝ) * (fOf tp p).val := by
  rcases h.ntGet_rel p with ⟨h1, h2⟩ | ⟨pn, rn, h1, h2, hg, hh, hp⟩
  · unfold fOf
    rw [h1, h2, RootQ.val_zero]
    ring
  · unfold fOf
    rw [h1, h2, RootQ.val_addQ, RootQ.val_addQ, hg, hh]
    push_cast
    ring

theorem TabRel.gOf_rel {c : ℚ} {tp tr : NTab} (h : TabRel c tp tr) (p : Pos) :
    gOf tr p = c * gOf tp p := by
  rcases h.ntGet_rel p with ⟨h1, h2⟩ | ⟨pn, rn, h1, h2, hg, hh, hp⟩
  · unfold gOf
    rw [h1, h2]
    ring
  · unfold gOf
    rw [h1, h2]
    show rn.g = c * pn.g
    exact hg

theorem TabRel.heapLt_eq {c : ℚ} (hc : 0 < c) {tp tr : NTab} (h : TabRel c tp tr) :
    heapLt tr = heapLt tp := by
  funext a b
  unfold heapLt
  exact RootQ.ltB_scale hc (h.fOf_rel a) (h.fOf_rel b)

theorem TabRel.parentOf_congr {c : ℚ} {tp tr : NTab} (h : TabRel c tp tr) (p : Pos) :
    parentOf tr p = parentOf tp p := by
  rcases h.ntGet_rel p with ⟨h1, h2⟩ | ⟨pn, rn, h1, h2, hg, hh, hp⟩
  · unfold parentOf
    rw [h1, h2]
  · unfold parentOf
    rw [h1, h2]
    show rn.parent = pn.parent
    exact hp

theorem TabRel.reconstruct_congr {c : ℚ} {tp tr : NTab} (h : TabRel c tp tr) :
    ∀ (fuel : Nat) (po : Option Pos) (acc : List Pos),
      reconstruct tr fuel po acc = reconstruct tp fuel po acc := by
  intro fuel
  induction fuel with
  | zero => intro po acc; rfl
  | succ fuel ih =>
    intro po acc
    rcases po with _ | p
    · rfl
    · unfold reconstruct
      rw [h.parentOf_congr p, ih]

theorem reconstructRisk_fst (nodes : NTab) (rm : List (List ℚ)) (rows cols : ℤ) :
    ∀ (fuel : Nat) (po : Option Pos) (acc : List Pos) (tr : ℚ),
      (reconstructRisk nodes rm rows cols fuel po acc tr).1 =
        reconstruct nodes fuel po acc := by
  intro fuel
  induction fuel with
  | zero => intro po acc tr; rfl
  | succ fuel ih =>
    intro po acc tr
    rcases po with _ | p
    · rfl
    · unfold reconstructRisk reconstruct
      rw [ih]

/-! ## Zero-risk equivalence: cost and heuristic scaling -/

theorem riskCost_zero_rm {rm : List (List ℚ)} (hz : ∀ x y, riskAt rm x y = 0)
    (rows cols : ℤ) (w : ℚ) (a b : Pos) :
    riskCost rm rows cols w a b = (1 - w) * calculate_cost a.1 a.2 b.1 b.2 := by
  unfold riskCost
  split_ifs with h
  · rw [hz b.1 b.2]
    ring
  · ring

theorem riskHeuristic_zero_rm {rm : List (List ℚ)} (hz : ∀ x y, riskAt rm x y = 0)
    (rows cols : ℤ) {w : ℚ} (hw : w ≤ 1) (x1 y1 x2 y2 : ℤ) :
    (riskHeuristic rm rows cols w x1 y1 x2 y2).val =
      ((1 - w : ℚ) : ℝ) * (heuristic x1 y1 x2 y2).val := by
  unfold riskHeuristic
  rw [RootQ.val_addQ, RootQ.val_smul (1 - w) (by linarith)]
  have havg : (if 0 ≤ x1 ∧ x1 < rows ∧ 0 ≤ y1 ∧ y1 < cols ∧
      0 ≤ x2 ∧ x2 < rows ∧ 0 ≤ y2 ∧ y2 < cols then
      (riskAt rm x1 y1 + riskAt rm x2 y2) / 2 else 0) = 0 := by
    split_ifs with h
    · rw [hz x1 y1, hz x2 y2]
      norm_num
    · rfl
  rw [havg]
  unfold heuristic
  push_cast
  ring

/-! ## Zero-risk equivalence: the two searches run in lockstep -/

theorem gexpand_rel {rm : List (List ℚ)} (hz : ∀ x y, riskAt rm x y = 0)
    (rows cols : ℤ) {w : ℚ} (hw : w < 1) (goalx goaly : ℤ) :
    ∀ (ns : List Pos) (closed : List Pos) (cur : Pos) (curGp : ℚ)
      (heap : List Pos) (tp tr : NTab),
      TabRel (1 - w) tp tr →
      (gexpand (fun a b => calculate_cost a.1 a.2 b.1 b.2)
          (fun p => heuristic p.1 p.2 goalx goaly) closed cur curGp ns (heap, tp)).1 =
        (gexpand (riskCost rm rows cols w)
          (fun p => riskHeuristic rm rows cols w p.1 p.2 goalx goaly) closed cur
          ((1 - w) * curGp) ns (heap, tr)).1 ∧
      TabRel (1 - w)
        (gexpand (fun a b => calculate_cost a.1 a.2 b.1 b.2)
          (fun p => heuristic p.1 p.2 goalx goaly) closed cur curGp ns (heap, tp)).2
        (gexpand (riskCost rm rows cols w)
          (fun p => riskHeuristic rm rows cols w p.1 p.2 goalx goaly) closed cur
          ((1 - w) * curGp) ns (heap, tr)).2 := by
  have hc : (0 : ℚ) < 1 - w := by linarith
  intro ns
  induction ns with
  | nil =>
    intro closed cur curGp heap tp tr hrel
    exact ⟨rfl, hrel⟩
  | cons nb rest ih =>
    intro closed cur curGp heap tp tr hrel
    by_cases hmem : nb ∈ closed
    · simp only [gexpand, if_pos hmem]
      exact ih closed cur curGp heap tp tr hrel
    · have hnodes : NodeRel (1 - w)
          ⟨curGp + calculate_cost cur.1 cur.2 nb.1 nb.2,
            heuristic nb.1 nb.2 goalx goaly, some cur⟩
          ⟨(1 - w) * curGp + riskCost rm rows cols w cur nb,
            riskHeuristic rm rows cols w nb.1 nb.2 goalx goaly, some cur⟩ := by
        refine ⟨?_, ?_, rfl⟩
        · show (1 - w) * curGp + riskCost rm rows cols w cur nb =
            (1 - w) * (curGp + calculate_cost cur.1 cur.2 nb.1 nb.2)
          rw [riskCost_zero_rm hz]
          ring
        · exact riskHeuristic_zero_rm hz rows cols (le_of_lt hw) nb.1 nb.2 goalx goaly
      have hset := hrel.ntSet_rel hnodes nb
      have hlt := hset.heapLt_eq hc
      rcases hrel.ntGet_rel nb with ⟨hg1, hg2⟩ | ⟨pn, rn, hg1, hg2, hgg, hgh, hgp⟩
      · simp only [gexpand, if_neg hmem, hg1, hg2]
        rw [hlt]
        exact ih _ _ _ _ _ _ hset
      · simp only [gexpand, if_neg hmem, hg1, hg2]
        by_cases hupd : curGp + calculate_cost cur.1 cur.2 nb.1 nb.2 < pn.g
        · rw [if_pos hupd, if_pos (by
            rw [hgg, riskCost_zero_rm hz]
            have := (mul_lt_mul_left hc).mpr hupd
            calc (1 - w) * curGp + (1 - w) * calculate_cost cur.1 cur.2 nb.1 nb.2
                = (1 - w) * (curGp + calculate_cost cur.1 cur.2 nb.1 nb.2) := by ring
              _ < (1 - w) * pn.g := this)]
          rw [hlt]
          exact ih _ _ _ _ _ _ hset
        · rw [if_neg hupd, if_neg (by
            rw [hgg, riskCost_zero_rm hz]
            intro hcon
            apply hupd
            have : (1 - w) * (curGp + calculate_cost cur.1 cur.2 nb.1 nb.2) <
                (1 - w) * pn.g := by
              calc (1 - w) * (curGp + calculate_cost cur.1 cur.2 nb.1 nb.2)
                  = (1 - w) * curGp + (1 - w) * calculate_cost cur.1 cur.2 nb.1 nb.2 := by ring
                _ < (1 - w) * pn.g := hcon
            exact (mul_lt_mul_left hc).mp this)]
          exact ih _ _ _ _ _ _ hrel

theorem gloop_rel (grid : List (List ℤ)) (blocked : List Pos)
    {rm : List (List ℚ)} (hz : ∀ x y, riskAt rm x y = 0)
    (rows cols : ℤ) {w : ℚ} (hw : w < 1) (goalx goaly : ℤ) :
    ∀ (fuel : Nat) (heap closed : List Pos) (tp tr : NTab),
      TabRel (1 - w) tp tr →
      (gloop grid blocked goalx goaly (fun a b => calculate_cost a.1 a.2 b.1 b.2)
          (fun p => heuristic p.1 p.2 goalx goaly) fuel (heap, closed, tp) = none ∧
        gloop grid blocked goalx goaly (riskCost rm rows cols w)
          (fun p => riskHeuristic rm rows cols w p.1 p.2 goalx goaly) fuel
          (heap, closed, tr) = none) ∨
      (∃ cur tp2 tr2,
        gloop grid blocked goalx goaly (fun a b => calculate_cost a.1 a.2 b.1 b.2)
          (fun p => heuristic p.1 p.2 goalx goaly) fuel (heap, closed, tp) =
          some (cur, tp2) ∧
        gloop grid blocked goalx goaly (riskCost rm rows cols w)
          (fun p => riskHeuristic rm rows cols w p.1 p.2 goalx goaly) fuel
          (heap, closed, tr) = some (cur, tr2) ∧
        TabRel (1 - w) tp2 tr2) := by
  have hc : (0 : ℚ) < 1 - w := by linarith
  intro fuel
  induction fuel with
  | zero =>
    intro heap closed tp tr hrel
    exact Or.inl ⟨rfl, rfl⟩
  | succ fuel ih =>
    intro heap closed tp tr hrel
    have hlt := hrel.heapLt_eq hc
    rcases hpop : heappop (heapLt tp) heap with _ | ⟨cur, heap1⟩
    · refine Or.inl ⟨?_, ?_⟩
      · rw [gloop]
        simp only [hpop]
      · rw [gloop]
        simp only [hlt, hpop]
    · by_cases hgoal : cur.1 = goalx ∧ cur.2 = goaly
      · refine Or.inr ⟨cur, tp, tr, ?_, ?_, hrel⟩
        · rw [gloop]
          simp only [hpop, if_pos hgoal]
        · rw [gloop]
          simp only [hlt, hpop, if_pos hgoal]
      · have hgof := hrel.gOf_rel cur
        have hexp := gexpand_rel hz rows cols hw goalx goaly
          (get_neighbors grid blocked cur) (cur :: closed) cur (gOf tp cur)
          heap1 tp tr hrel
        have hnext := ih
          (gexpand (fun a b => calculate_cost a.1 a.2 b.1 b.2)
            (fun p => heuristic p.1 p.2 goalx goaly) (cur :: closed) cur
            (gOf tp cur) (get_neighbors grid blocked cur) (heap1, tp)).1
          (cur :: closed)
          (gexpand (fun a b => calculate_cost a.1 a.2 b.1 b.2)
            (fun p => heuristic p.1 p.2 goalx goaly) (cur :: closed) cur
            (gOf tp cur) (get_neighbors grid blocked cur) (heap1, tp)).2
          (gexpand (riskCost rm rows cols w)
            (fun p => riskHeuristic rm rows cols w p.1 p.2 goalx goaly) (cur :: closed) cur
            ((1 - w) * gOf tp cur) (get_neighbors grid blocked cur) (heap1, tr)).2
          hexp.2
        rcases hnext with ⟨hn1, hn2⟩ | ⟨cur2, tp2, tr2, hn1, hn2, hn3⟩
        · refine Or.inl ⟨?_, ?_⟩
          · rw [gloop]
            simp only [hpop, if_neg hgoal]
            exact hn1
          · rw [gloop]
            simp only [hlt, hpop, if_neg hgoal]
            rw [hgof, ← hexp.1]
            exact hn2
        · refine Or.inr ⟨cur2, tp2, tr2, ?_, ?_, hn3⟩
          · rw [gloop]
            simp only [hpop, if_neg hgoal]
            exact hn1
          · rw [gloop]
            simp only [hlt, hpop, if_neg hgoal]
            rw [hgof, ← hexp.1]
            exact hn2

/-- With a uniformly-zero risk map and a safety weight below 1, the
risk-weighted search returns the same path as the distance-only search,
provided start and goal pass `find_path`'s validation (otherwise the two
functions validate differently; see the C3 counterexample). -/
theorem zero_risk_same_path (grid : List (List ℤ)) (start goal : Pos)
    (blocked : Option (List Pos)) (rm : List (List ℚ)) (w : ℚ) (hw : w < 1)
    (hz : ∀ x y, riskAt rm x y = 0)
    (hbs : 0 ≤ start.1 ∧ start.1 < (grid.length : ℤ) ∧ 0 ≤ start.2 ∧
      start.2 < ((grid.headD []).length : ℤ))
    (hbg : 0 ≤ goal.1 ∧ goal.1 < (grid.length : ℤ) ∧ 0 ≤ goal.2 ∧
      goal.2 < ((grid.headD []).length : ℤ))
    (hvs : ¬ (start ∈ blocked.getD [] ∨ cellAt grid start.1 start.2 = 1))
    (hvg : ¬ (goal ∈ blocked.getD [] ∨ cellAt grid goal.1 goal.2 = 1)) :
    (find_path_with_risk grid start goal (some rm) blocked w).1 =
      (find_path grid start goal blocked).1 := by
  have hlen : ¬ grid.length = 0 := by
    intro h0
    rw [h0] at hbs
    have := hbs.2.1
    norm_num at this
    omega
  have hrmdef : defaultRM grid (some rm) = rm := rfl
  unfold find_path find_path_with_risk
  rw [if_neg hlen, if_neg hlen, if_neg (not_not_intro hbs), if_neg (not_not_intro hbs),
    if_neg (not_not_intro hbg), if_neg (not_not_intro hbg), if_neg hvs, if_neg hvg,
    hrmdef]
  have hrel0 : TabRel (1 - w)
      [(start, ⟨0, heuristic start.1 start.2 goal.1 goal.2, none⟩)]
      [(start, ⟨0, riskHeuristic rm grid.length (grid.headD []).length w
        start.1 start.2 goal.1 goal.2, none⟩)] := by
    refine List.Forall₂.cons ⟨rfl, ?_, ?_, rfl⟩ List.Forall₂.nil
    · show (0 : ℚ) = (1 - w) * 0
      ring
    · exact riskHeuristic_zero_rm hz grid.length (grid.headD []).length
        (le_of_lt hw) start.1 start.2 goal.1 goal.2
  have hrel := gloop_rel grid (blocked.getD []) hz grid.length (grid.headD []).length
    hw goal.1 goal.2 (fuelFor grid) [start] [] _ _ hrel0
  rcases hrel with ⟨hn1, hn2⟩ | ⟨cur, tp2, tr2, hn1, hn2, hn3⟩
  · simp only [hn1, hn2]
  · simp only [hn1, hn2]
    unfold packResult packResultRisk
    rw [reconstructRisk_fst, hn3.reconstruct_congr, List.Forall₂.length_eq hn3]

/-- C6 counterexample: with a present, uniformly-zero risk map but a start
cell that is an obstacle, `compare_routes` returns an empty `shortest` path
(`find_path` validates the start) yet a non-empty `safest` path
(`find_path_with_risk` does not), so the three entries are not all equal,
refuting the claim as stated for every grid, start, goal and blocked set. -/
theorem claim_C6_counterexample :
    (compare_routes [[1, 0], [0, 0]] (0, 0) (1, 1) (some [[0, 0], [0, 0]]) none).shortest.path
        = [] ∧
    (compare_routes [[1, 0], [0, 0]] (0, 0) (1, 1) (some [[0, 0], [0, 0]]) none).safest.path
        = [(0, 0), (1, 1)] := by
  decide

/-- C6 amended: for every grid, start and goal that pass `find_path`'s
validation (in bounds, not an obstacle, not blocked), `compare_routes`
with a present and uniformly-zero risk map returns the same path for the
`shortest`, `safest` and `balanced` entries. -/
theorem claim_C6_amended_zero_risk_same_paths (grid : List (List ℤ))
    (start goal : Pos) (blocked : Option (List Pos)) (rm : List (List ℚ))
    (hne : rm ≠ []) (hz : ∀ x y, riskAt rm x y = 0)
    (hbs : 0 ≤ start.1 ∧ start.1 < (grid.length : ℤ) ∧ 0 ≤ start.2 ∧
      start.2 < ((grid.headD []).length : ℤ))
    (hbg : 0 ≤ goal.1 ∧ goal.1 < (grid.length : ℤ) ∧ 0 ≤ goal.2 ∧
      goal.2 < ((grid.headD []).length : ℤ))
    (hvs : ¬ (start ∈ blocked.getD [] ∨ cellAt grid start.1 start.2 = 1))
    (hvg : ¬ (goal ∈ blocked.getD [] ∨ cellAt grid goal.1 goal.2 = 1)) :
    (compare_routes grid start goal (some rm) blocked).safest.path =
      (compare_routes grid start goal (some rm) blocked).shortest.path ∧
    (compare_routes grid start goal (some rm) blocked).balanced.path =
      (compare_routes grid start goal (some rm) blocked).shortest.path := by
  have htr : riskTruthy (some rm) = true := by
    rcases rm with _ | ⟨a, t⟩
    · exact absurd rfl hne
    · rfl
  unfold compare_routes
  simp only [htr, if_true]
  constructor
  · exact zero_risk_same_path grid start goal blocked rm (8 / 10) (by norm_num)
      hz hbs hbg hvs hvg
  · exact zero_risk_same_path grid start goal blocked rm (5 / 10) (by norm_num)
      hz hbs hbg hvs hvg

/-- Closed witness for the amended C6: the 2×2 all-free grid with the zero
risk map yields the same (diagonal) path in all three entries. -/
theorem claim_C6_amended_zero_risk_same_paths_witness :
    (compare_routes [[0, 0], [0, 0]] (0, 0) (1, 1) (some [[0, 0], [0, 0]]) none).safest.path =
      (compare_routes [[0, 0], [0, 0]] (0, 0) (1, 1) (some [[0, 0], [0, 0]]) none).shortest.path ∧
    (compare_routes [[0, 0], [0, 0]] (0, 0) (1, 1) (some [[0, 0], [0, 0]]) none).balanced.path =
      (compare_routes [[0, 0], [0, 0]] (0, 0) (1, 1) (some [[0, 0], [0, 0]]) none).shortest.path :=
  claim_C6_amended_zero_risk_same_paths [[0, 0], [0, 0]] (0, 0) (1, 1) none
    [[0, 0], [0, 0]] (by decide)
    (by
      intro x y
      unfold riskAt
      rcases x.toNat with _ | n
      · rcases y.toNat with _ | m
        · rfl
        · rcases m with _ | k <;> rfl
      · rcases n with _ | n2
        · rcases y.toNat with _ | m
          · rfl
          · rcases m with _ | k <;> rfl
        · rfl)
    (by decide) (by decide) (by decide) (by decide)

/-- The Euclidean heuristic strictly exceeds the actual diagonal edge cost
(`√2 > 1.414`), so it is *not* admissible with respect to the cost model
the search actually uses: the admissibility premise behind the optimality
claim of the specification fails on the source's cost constants. -/
theorem heuristic_inadmissible_for_diagonal :
    ((calculate_cost 0 0 1 1 : ℚ) : ℝ) < (heuristic 0 0 1 1).val := by
  have hc : calculate_cost 0 0 1 1 = 1414 / 1000 := by decide
  have hh : heuristic 0 0 1 1 = ⟨0, 2⟩ := by decide
  rw [hc, hh]
  unfold RootQ.val sgnSqrtQ
  rw [if_pos (by norm_num : (0 : ℚ) ≤ 2)]
  have h2 : ((1414 / 1000 : ℚ) : ℝ) < Real.sqrt ((2 : ℚ) : ℝ) := by
    apply (Real.lt_sqrt (by positivity)).2
    push_cast
    norm_num
  push_cast at h2 ⊢
  linarith

end IISWPS
